import Mathlib

/-!
Shallow embedding of the limit order book matching engine from
`src/lob/match_engine.cpp`, together with theorems about its claims.

Modelling choices:
* C++ `double` prices and sizes become `ℚ` (the source relies on exact
  `==` / `<` / `>`, which `ℚ` models faithfully for every value the caller
  can meaningfully pass; NaN/infinity are outside this embedding).
* `std::map<double, PriceLevel, Cmp>` becomes an association list sorted
  by the comparator (ascending for asks, descending for bids); `std::map`
  keeps keys unique and sorted, which the list operations below preserve.
* `std::map<std::string, ...>` (the id index) becomes an association list
  sorted by `String` order.
* `std::shared_ptr<Order>` becomes a plain `Order` value: the engine only
  ever stores pointers freshly produced by `make_shared`, so a level never
  holds a null pointer and no aliasing between distinct list entries can
  arise within one book.
* C++ exceptions become `Except String`.
-/

namespace LOB

inductive Side where
  | BUY
  | SELL
deriving DecidableEq, Repr

structure Order where
  order_id : String
  side : Side
  price : ℚ
  size : ℚ
  timestamp : Int
deriving DecidableEq, Repr

structure Fill where
  taker_order_id : String
  maker_order_id : String
  price : ℚ
  size : ℚ
  timestamp : Int
deriving DecidableEq, Repr

/-- A price level: resting orders at one price, head = oldest. -/
abbrev PriceLevel := List Order

/-- One side of the book: price → level, kept sorted by the side's
comparator (ascending for asks, descending for bids), keys unique. -/
abbrev Book := List (ℚ × PriceLevel)

/-- The id index `order_id → (side, price)`.  `std::map` keeps unique
keys and is never iterated by the engine, so an association list with
unique keys models it faithfully (find / insert-or-assign / erase are the
only operations the source performs on it). -/
abbrev OMap := List (String × (Side × ℚ))

/-- Engine state: bid book, ask book, id index. -/
structure MatchEngine where
  bids : Book
  asks : Book
  order_map : OMap
deriving DecidableEq, Repr

/-- The empty engine produced by the constructor. -/
def engineEmpty : MatchEngine := ⟨[], [], []⟩

/-- `order_map.find(id)` on the sorted association list. -/
def omapLookup (id : String) : OMap → Option (Side × ℚ)
  | [] => none
  | (k, v) :: rest => if id = k then some v else omapLookup id rest

/-- `order_map[id] = v`: insert-or-assign (replace the unique entry for
`id`, or append a fresh one). -/
def omapAssign (id : String) (v : Side × ℚ) : OMap → OMap
  | [] => [(id, v)]
  | (k, w) :: rest =>
    if id = k then (id, v) :: rest
    else (k, w) :: omapAssign id v rest

/-- `order_map.erase(id)`. -/
def omapErase (id : String) : OMap → OMap
  | [] => []
  | (k, w) :: rest => if id = k then rest else (k, w) :: omapErase id rest

/-- `std::greater<double>`: the bid book's comparator (`a` sorts before
`b` iff `a > b`). -/
def bidBefore : ℚ → ℚ → Bool := fun a b => decide (b < a)

/-- `std::less<double>`: the ask book's comparator (`a` sorts before `b`
iff `a < b`). -/
def askBefore : ℚ → ℚ → Bool := fun a b => decide (a < b)

/-- `book[price].orders.push_back(order)`: append to the level at `price`,
creating it at its sorted position (per comparator `before`) if absent. -/
def bookAdd (before : ℚ → ℚ → Bool) (price : ℚ) (o : Order) :
    Book → Book
  | [] => [(price, [o])]
  | (q, lv) :: rest =>
    if before price q then (price, [o]) :: (q, lv) :: rest
    else if price = q then (q, lv ++ [o]) :: rest
    else (q, lv) :: bookAdd before price o rest

/-- The `cancel` book mutation: find the level with key `price`, drop every
order whose id is `id` (`std::remove_if`), and erase the level if it became
empty. -/
def bookRemoveId (price : ℚ) (id : String) : Book → Book
  | [] => []
  | (q, lv) :: rest =>
    if q = price then
      if (lv.filter (fun o => o.order_id ≠ id)).isEmpty then rest
      else (q, lv.filter (fun o => o.order_id ≠ id)) :: rest
    else (q, lv) :: bookRemoveId price id rest

/-- The inner matching loop of `match_buy` / `match_sell`: consume the
level `os` (at price `q`) from the head while the taker has size left.
A maker with non-positive size is dropped without a fill (the source's
defensive `maker->size <= 0` branch).  Returns the fills in emission
order, the updated taker, the remaining level, and the updated index. -/
def matchLevel (t : Order) (os : List Order) (om : OMap) (q : ℚ) :
    List Fill × Order × List Order × OMap :=
  match os with
  | [] => ([], t, [], om)
  | maker :: rest =>
    if t.size ≤ 0 then ([], t, maker :: rest, om)
    else if maker.size ≤ 0 then matchLevel t rest om q
    else
      let m := min t.size maker.size
      let fill : Fill := ⟨t.order_id, maker.order_id, q, m, t.timestamp⟩
      let t2 : Order := { t with size := t.size - m }
      let maker2 : Order := { maker with size := maker.size - m }
      if maker2.size ≤ 0 then
        let res := matchLevel t2 rest (omapErase maker.order_id om) q
        (fill :: res.1, res.2.1, res.2.2.1, res.2.2.2)
      else
        let res := matchLevel t2 rest om q
        (fill :: res.1, res.2.1, maker2 :: res.2.2.1, res.2.2.2)

/-- The outer matching loop: walk the opposite book `bk` (already sorted
best-first), stopping when the taker is exhausted or the next level fails
the cross test `cross q t.price`; levels emptied by matching are erased.
`cross q p` is `q ≤ p` for a BUY taker over asks and `q ≥ p` for a SELL
taker over bids (the source's `break` conditions negated). -/
def matchBook (t : Order) (bk : Book) (om : OMap)
    (cross : ℚ → ℚ → Bool) : List Fill × Order × Book × OMap :=
  match bk with
  | [] => ([], t, [], om)
  | (q, lv) :: rest =>
    if t.size ≤ 0 then ([], t, (q, lv) :: rest, om)
    else if ¬ cross q t.price then ([], t, (q, lv) :: rest, om)
    else
      let r1 := matchLevel t lv om q
      let r2 := matchBook r1.2.1 rest r1.2.2.2 cross
      if r1.2.2.1.isEmpty then
        (r1.1 ++ r2.1, r2.2.1, r2.2.2.1, r2.2.2.2)
      else
        (r1.1 ++ r2.1, r2.2.1, (q, r1.2.2.1) :: r2.2.2.1, r2.2.2.2)

/-- A BUY taker with limit `p` crosses an ask level at `q` iff `q ≤ p`
(negation of the source's `ask_it->first > order->price` break). -/
def buyCross : ℚ → ℚ → Bool := fun q p => decide (q ≤ p)

/-- A SELL taker with limit `p` crosses a bid level at `q` iff `q ≥ p`
(negation of the source's `bid_it->first < order->price` break). -/
def sellCross : ℚ → ℚ → Bool := fun q p => decide (p ≤ q)

/-- `MatchEngine::match_buy`: guard, then sweep the ask book. -/
def match_buy (o : Order) (asks : Book) (om : OMap) :
    Except String (List Fill × Order × Book × OMap) :=
  if o.size ≤ 0 then .error "Order size must be positive"
  else .ok (matchBook o asks om buyCross)

/-- `MatchEngine::match_sell`: guard, then sweep the bid book. -/
def match_sell (o : Order) (bids : Book) (om : OMap) :
    Except String (List Fill × Order × Book × OMap) :=
  if o.size ≤ 0 then .error "Order size must be positive"
  else .ok (matchBook o bids om sellCross)

/-- `MatchEngine::add_to_book`: validate, append the order to its own-side
level, and register it in the index. -/
def add_to_book (o : Order) (bids asks : Book) (om : OMap) :
    Except String (Book × Book × OMap) :=
  if o.size ≤ 0 then .error "Order size must be positive"
  else if o.price ≤ 0 then .error "Order price must be positive"
  else if o.order_id.isEmpty then .error "Order ID cannot be empty"
  else
    match o.side with
    | .BUY =>
      .ok (bookAdd bidBefore o.price o bids, asks,
           omapAssign o.order_id (o.side, o.price) om)
    | .SELL =>
      .ok (bids, bookAdd askBefore o.price o asks,
           omapAssign o.order_id (o.side, o.price) om)

/-- `MatchEngine::insert`: validate the arguments, match against the
opposite book, rest the residual on the own side, return the fills. -/
def insert (e : MatchEngine) (order_id : String) (side : Side)
    (price size : ℚ) (timestamp : Int) :
    Except String (List Fill × MatchEngine) :=
  if order_id.isEmpty then .error "Order ID cannot be empty"
  else if price ≤ 0 then .error "Price must be positive"
  else if size ≤ 0 then .error "Size must be positive"
  else if timestamp < 0 then .error "Timestamp must be non-negative"
  else
    let o : Order := ⟨order_id, side, price, size, timestamp⟩
    match side with
    | .BUY =>
      match match_buy o e.asks e.order_map with
      | .error msg => .error ("Error in insert: " ++ msg)
      | .ok (fills, o2, asks2, om2) =>
        if o2.size > 0 then
          match add_to_book o2 e.bids asks2 om2 with
          | .error msg => .error ("Error in insert: " ++ msg)
          | .ok (bids3, asks3, om3) => .ok (fills, ⟨bids3, asks3, om3⟩)
        else .ok (fills, ⟨e.bids, asks2, om2⟩)
    | .SELL =>
      match match_sell o e.bids e.order_map with
      | .error msg => .error ("Error in insert: " ++ msg)
      | .ok (fills, o2, bids2, om2) =>
        if o2.size > 0 then
          match add_to_book o2 bids2 e.asks om2 with
          | .error msg => .error ("Error in insert: " ++ msg)
          | .ok (bids3, asks3, om3) => .ok (fills, ⟨bids3, asks3, om3⟩)
        else .ok (fills, ⟨bids2, e.asks, om2⟩)

/-- `MatchEngine::cancel`: validate, look up the index, remove the order
from its level (pruning the level if emptied) and erase the index entry. -/
def cancel (e : MatchEngine) (order_id : String) :
    Except String (Bool × MatchEngine) :=
  if order_id.isEmpty then .error "Order ID cannot be empty"
  else
    match omapLookup order_id e.order_map with
    | none => .ok (false, e)
    | some (side, price) =>
      let om2 := omapErase order_id e.order_map
      match side with
      | .BUY => .ok (true, ⟨bookRemoveId price order_id e.bids, e.asks, om2⟩)
      | .SELL => .ok (true, ⟨e.bids, bookRemoveId price order_id e.asks, om2⟩)

/-! ### Operation sequences and observers -/

/-- A public operation on the engine. -/
inductive Op where
  | ins (order_id : String) (side : Side) (price size : ℚ) (timestamp : Int)
  | can (order_id : String)
deriving DecidableEq, Repr

/-- Run one public operation; a call that raises keeps the state (the
source throws before any mutation on the paths that throw). -/
def step (e : MatchEngine) : Op → MatchEngine
  | .ins id s p sz ts =>
    match insert e id s p sz ts with
    | .ok (_, e2) => e2
    | .error _ => e
  | .can id =>
    match cancel e id with
    | .ok (_, e2) => e2
    | .error _ => e

/-- The engine state after a sequence of public operations from the
freshly constructed (empty) engine. -/
def run (ops : List Op) : MatchEngine := ops.foldl step engineEmpty

/-- The price keys of one side of the book. -/
def bookKeys (bk : Book) : List ℚ := bk.map Prod.fst

/-- The level at exact price `q` (empty list when the key is absent). -/
def levelOf (q : ℚ) : Book → List Order
  | [] => []
  | (k, lv) :: rest => if k = q then lv else levelOf q rest

/-- All resting orders of one side, best level first, FIFO within level. -/
def bookOrders : Book → List Order
  | [] => []
  | (_, lv) :: rest => lv ++ bookOrders rest

/-- The ids of all resting orders (bid side first). -/
def restingIds (e : MatchEngine) : List String :=
  (bookOrders e.bids ++ bookOrders e.asks).map Order.order_id

/-- The book of the taker's own side. -/
def ownBook (e : MatchEngine) : Side → Book
  | .BUY => e.bids
  | .SELL => e.asks

/-- The book opposite the taker's side. -/
def oppBook (e : MatchEngine) : Side → Book
  | .BUY => e.asks
  | .SELL => e.bids

/-- Total resting size in a level. -/
def levelSum (lv : List Order) : ℚ := (lv.map Order.size).sum

/-- Total resting size on one side of the book. -/
def bookSum : Book → ℚ
  | [] => 0
  | (_, lv) :: rest => levelSum lv + bookSum rest

/-- Total executed size of a fill list. -/
def sumFills (fs : List Fill) : ℚ := (fs.map Fill.size).sum

/-- The book is uncrossed: every bid price is below every ask price. -/
def Uncrossed (e : MatchEngine) : Prop :=
  ∀ pb ∈ bookKeys e.bids, ∀ pa ∈ bookKeys e.asks, pb < pa

/-! ### Basic lemmas about the matching loops -/

theorem matchLevel_nil (t : Order) (om : OMap) (q : ℚ) :
    matchLevel t [] om q = ([], t, [], om) := rfl

theorem matchLevel_of_nonpos {t : Order} (os : List Order) (om : OMap) (q : ℚ)
    (h : t.size ≤ 0) : matchLevel t os om q = ([], t, os, om) := by
  cases os with
  | nil => rfl
  | cons maker rest => simp [matchLevel, h]

theorem matchBook_of_nonpos {t : Order} (bk : Book) (om : OMap)
    (cross : ℚ → ℚ → Bool) (h : t.size ≤ 0) :
    matchBook t bk om cross = ([], t, bk, om) := by
  cases bk with
  | nil => rfl
  | cons hd rest => obtain ⟨q, lv⟩ := hd; simp [matchBook, h]

theorem matchLevel_taker_eq (t : Order) (os : List Order) (om : OMap) (q : ℚ) :
    ∃ s, (matchLevel t os om q).2.1 = { t with size := s } := by
  induction os generalizing t om with
  | nil => exact ⟨t.size, rfl⟩
  | cons maker rest ih =>
    by_cases h0 : t.size ≤ 0
    · exact ⟨t.size, by simp [matchLevel, h0]⟩
    · by_cases hstale : maker.size ≤ 0
      · simpa [matchLevel, h0, hstale] using ih t om
      · by_cases hm : maker.size - min t.size maker.size ≤ 0
        · obtain ⟨s, hs⟩ := ih { t with size := t.size - min t.size maker.size }
            (omapErase maker.order_id om)
          exact ⟨s, by simp [matchLevel, h0, hstale, hm, hs]⟩
        · obtain ⟨s, hs⟩ := ih { t with size := t.size - min t.size maker.size } om
          exact ⟨s, by simp [matchLevel, h0, hstale, hm, hs]⟩

theorem matchLevel_cons_stale {t maker : Order} (rest : List Order) (om : OMap)
    (q : ℚ) (h0 : ¬ t.size ≤ 0) (hstale : maker.size ≤ 0) :
    matchLevel t (maker :: rest) om q = matchLevel t rest om q := by
  rw [matchLevel]; simp [h0, hstale]

theorem matchLevel_cons_erase {t maker : Order} (rest : List Order) (om : OMap)
    (q : ℚ) (h0 : ¬ t.size ≤ 0) (hstale : ¬ maker.size ≤ 0)
    (hm : maker.size - min t.size maker.size ≤ 0) :
    matchLevel t (maker :: rest) om q =
      ((⟨t.order_id, maker.order_id, q, min t.size maker.size, t.timestamp⟩ : Fill) ::
        (matchLevel { t with size := t.size - min t.size maker.size } rest
          (omapErase maker.order_id om) q).1,
       (matchLevel { t with size := t.size - min t.size maker.size } rest
          (omapErase maker.order_id om) q).2) := by
  rw [matchLevel]; simp [h0, hstale, hm]

theorem matchLevel_cons_keep {t maker : Order} (rest : List Order) (om : OMap)
    (q : ℚ) (h0 : ¬ t.size ≤ 0) (hstale : ¬ maker.size ≤ 0)
    (hm : ¬ maker.size - min t.size maker.size ≤ 0) :
    matchLevel t (maker :: rest) om q =
      ((⟨t.order_id, maker.order_id, q, min t.size maker.size, t.timestamp⟩ : Fill) ::
        (matchLevel { t with size := t.size - min t.size maker.size } rest om q).1,
       (matchLevel { t with size := t.size - min t.size maker.size } rest om q).2.1,
       { maker with size := maker.size - min t.size maker.size } ::
        (matchLevel { t with size := t.size - min t.size maker.size } rest om q).2.2.1,
       (matchLevel { t with size := t.size - min t.size maker.size } rest om q).2.2.2) := by
  rw [matchLevel]; simp [h0, hstale, hm]

theorem matchBook_cons_nocross {t : Order} {q : ℚ} {lv : PriceLevel}
    (rest : Book) (om : OMap) (cross : ℚ → ℚ → Bool)
    (hc : ¬ cross q t.price) :
    matchBook t ((q, lv) :: rest) om cross = ([], t, (q, lv) :: rest, om) := by
  rw [matchBook]
  by_cases h0 : t.size ≤ 0 <;> simp [h0, hc]

theorem matchBook_cons_cross {t : Order} {q : ℚ} {lv : PriceLevel}
    (rest : Book) (om : OMap) (cross : ℚ → ℚ → Bool)
    (h0 : ¬ t.size ≤ 0) (hc : cross q t.price) :
    matchBook t ((q, lv) :: rest) om cross =
      ((matchLevel t lv om q).1 ++
        (matchBook (matchLevel t lv om q).2.1 rest
          (matchLevel t lv om q).2.2.2 cross).1,
       (matchBook (matchLevel t lv om q).2.1 rest
          (matchLevel t lv om q).2.2.2 cross).2.1,
       (if (matchLevel t lv om q).2.2.1.isEmpty then
          (matchBook (matchLevel t lv om q).2.1 rest
            (matchLevel t lv om q).2.2.2 cross).2.2.1
        else
          (q, (matchLevel t lv om q).2.2.1) ::
            (matchBook (matchLevel t lv om q).2.1 rest
              (matchLevel t lv om q).2.2.2 cross).2.2.1),
       (matchBook (matchLevel t lv om q).2.1 rest
          (matchLevel t lv om q).2.2.2 cross).2.2.2) := by
  rw [matchBook]
  by_cases he : (matchLevel t lv om q).2.2.1.isEmpty <;> simp [h0, hc, he]

theorem matchBook_taker_eq (t : Order) (bk : Book) (om : OMap)
    (cross : ℚ → ℚ → Bool) :
    ∃ s, (matchBook t bk om cross).2.1 = { t with size := s } := by
  induction bk generalizing t om with
  | nil => exact ⟨t.size, rfl⟩
  | cons hd rest ih =>
    obtain ⟨q, lv⟩ := hd
    by_cases h0 : t.size ≤ 0
    · exact ⟨t.size, by simp [matchBook, h0]⟩
    · by_cases hc : cross q t.price
      · obtain ⟨s1, hs1⟩ := matchLevel_taker_eq t lv om q
        obtain ⟨s2, hs2⟩ := ih (matchLevel t lv om q).2.1 (matchLevel t lv om q).2.2.2
        rw [hs1] at hs2
        refine ⟨s2, ?_⟩
        rw [matchBook_cons_cross rest om cross h0 hc]
        simpa [hs1] using hs2
      · exact ⟨t.size, by simp [matchBook_cons_nocross rest om cross hc]⟩

/-- If the inner loop leaves the level non-empty, the taker is spent. -/
theorem matchLevel_level_nonempty {t : Order} {os : List Order} {om : OMap}
    {q : ℚ} (h : (matchLevel t os om q).2.2.1 ≠ []) :
    (matchLevel t os om q).2.1.size ≤ 0 := by
  induction os generalizing t om with
  | nil => simp [matchLevel_nil] at h
  | cons maker rest ih =>
    by_cases h0 : t.size ≤ 0
    · simp [matchLevel, h0]
    · by_cases hstale : maker.size ≤ 0
      · rw [matchLevel, if_neg h0, if_pos hstale] at h ⊢
        exact ih h
      · by_cases hm : maker.size - min t.size maker.size ≤ 0
        · rw [matchLevel] at h ⊢
          simp only [if_neg h0, if_neg hstale, if_pos hm] at h ⊢
          exact ih h
        · have hmin : min t.size maker.size = t.size := by
            rcases le_total t.size maker.size with hle | hle
            · exact min_eq_left hle
            · exact absurd (by linarith [min_eq_right hle]) hm
          rw [matchLevel] at h ⊢
          simp only [if_neg h0, if_neg hstale, if_neg hm]
          rw [matchLevel_of_nonpos rest om q
                (t := { t with size := t.size - min t.size maker.size })
                (by simp [hmin])]
          simp [hmin]

@[simp]
theorem bookKeys_nil : bookKeys [] = [] := rfl

@[simp]
theorem bookKeys_cons (q : ℚ) (lv : PriceLevel) (rest : Book) :
    bookKeys ((q, lv) :: rest) = q :: bookKeys rest := rfl

/-- The price keys surviving a sweep are a sublist of the original keys:
matching only erases levels, it never creates or reorders them. -/
theorem matchBook_keys_sublist (t : Order) (bk : Book) (om : OMap)
    (cross : ℚ → ℚ → Bool) :
    (bookKeys (matchBook t bk om cross).2.2.1).Sublist (bookKeys bk) := by
  induction bk generalizing t om with
  | nil => simp [matchBook]
  | cons hd rest ih =>
    obtain ⟨q, lv⟩ := hd
    by_cases h0 : t.size ≤ 0
    · simp [matchBook_of_nonpos _ _ _ h0]
    · by_cases hc : cross q t.price
      · rw [matchBook_cons_cross rest om cross h0 hc]
        by_cases he : (matchLevel t lv om q).2.2.1.isEmpty
        · simp only [he, if_pos]
          exact (ih _ _).trans (List.sublist_cons_self _ _)
        · simp only [he, if_neg, Bool.false_eq_true, not_false_iff]
          simpa [bookKeys] using (ih _ _).cons₂ q
      · simp [matchBook_cons_nocross rest om cross hc]

/-- If the taker still has size after the sweep, every surviving level of
the opposite book fails the cross test (for a sorted book and an
upward-closed non-cross region). -/
theorem matchBook_nocross_of_residual {t : Order} {bk : Book} {om : OMap}
    {cross : ℚ → ℚ → Bool} {R : ℚ → ℚ → Prop}
    (hsort : (bookKeys bk).Pairwise R)
    (hmono : ∀ a b, cross a t.price = false → R a b → cross b t.price = false)
    (hres : 0 < (matchBook t bk om cross).2.1.size) :
    ∀ q ∈ bookKeys (matchBook t bk om cross).2.2.1, cross q t.price = false := by
  induction bk generalizing t om with
  | nil => simp [matchBook]
  | cons hd rest ih =>
    obtain ⟨q0, lv⟩ := hd
    rw [bookKeys_cons] at hsort
    obtain ⟨hhead, htail⟩ := List.pairwise_cons.mp hsort
    by_cases h0 : t.size ≤ 0
    · rw [matchBook_of_nonpos _ _ _ h0] at hres
      exact absurd hres (by simpa using h0)
    · by_cases hc : cross q0 t.price
      · rw [matchBook_cons_cross rest om cross h0 hc] at hres ⊢
        by_cases he : (matchLevel t lv om q0).2.2.1.isEmpty
        · simp only [he, if_pos] at hres ⊢
          obtain ⟨s1, hs1⟩ := matchLevel_taker_eq t lv om q0
          have hmono2 : ∀ a b,
              cross a (matchLevel t lv om q0).2.1.price = false → R a b →
                cross b (matchLevel t lv om q0).2.1.price = false := by
            rw [hs1]; exact hmono
          have h2 := ih htail hmono2 hres
          simpa [hs1] using h2
        · -- the level survived, so the taker was spent before the
          -- recursive sweep: its residual cannot be positive
          exfalso
          have hsp : (matchLevel t lv om q0).2.1.size ≤ 0 :=
            matchLevel_level_nonempty (by simpa using he)
          rw [matchBook_of_nonpos _ _ _ hsp] at hres
          exact absurd hres (by simpa using hsp)
      · rw [matchBook_cons_nocross rest om cross hc]
        intro q hq
        rcases (by simpa using hq : q = q0 ∨ q ∈ bookKeys rest) with
          rfl | hq2
        · simpa using hc
        · exact hmono q0 q (by simpa using hc) (hhead q hq2)

/-! ### Lemmas about `bookAdd`, `bookRemoveId` and sortedness -/

theorem bookAdd_keys_subset (before : ℚ → ℚ → Bool) (p : ℚ) (o : Order)
    (bk : Book) :
    ∀ x ∈ bookKeys (bookAdd before p o bk), x = p ∨ x ∈ bookKeys bk := by
  induction bk with
  | nil => simp [bookAdd]
  | cons hd rest ih =>
    obtain ⟨q, lv⟩ := hd
    intro x hx
    by_cases h1 : before p q
    · rcases (by simpa [bookAdd, h1] using hx : x = p ∨ x = q ∨ x ∈ bookKeys rest)
        with h | h | h
      · exact Or.inl h
      · exact Or.inr (by simp [h])
      · exact Or.inr (by simp [h])
    · by_cases h2 : p = q
      · subst h2
        rcases (by simpa [bookAdd, h1] using hx : x = p ∨ x ∈ bookKeys rest)
          with h | h
        · exact Or.inl h
        · exact Or.inr (by simp [h])
      · rcases (by simpa [bookAdd, h1, h2] using hx :
            x = q ∨ x ∈ bookKeys (bookAdd before p o rest)) with h | h
        · exact Or.inr (by simp [h])
        · rcases ih x (by simpa using h) with h3 | h3
          · exact Or.inl h3
          · exact Or.inr (by simp [h3])

/-- Inserting a level keeps the keys sorted, for a comparator `before`
deciding a transitive, total, strict order `R`. -/
theorem bookAdd_sorted {R : ℚ → ℚ → Prop} {before : ℚ → ℚ → Bool}
    (hiff : ∀ a b, before a b = true ↔ R a b)
    (htot : ∀ a b, ¬ R a b → a ≠ b → R b a)
    (htr : ∀ a b c, R a b → R b c → R a c)
    (p : ℚ) (o : Order) {bk : Book}
    (hsort : (bookKeys bk).Pairwise R) :
    (bookKeys (bookAdd before p o bk)).Pairwise R := by
  induction bk with
  | nil => simp [bookAdd]
  | cons hd rest ih =>
    obtain ⟨q, lv⟩ := hd
    rw [bookKeys_cons] at hsort
    obtain ⟨hhead, htail⟩ := List.pairwise_cons.mp hsort
    by_cases h1 : before p q
    · have hpq : R p q := (hiff p q).mp h1
      simp only [bookAdd, h1, if_pos, bookKeys_cons]
      refine List.pairwise_cons.mpr ⟨?_, hsort⟩
      intro b hb
      rcases (by simpa using hb : b = q ∨ b ∈ bookKeys rest) with rfl | hb2
      · exact hpq
      · exact htr p q b hpq (hhead b hb2)
    · by_cases h2 : p = q
      · subst h2
        simpa [bookAdd, h1] using hsort
      · have hqp : R q p := htot p q (fun h => h1 ((hiff p q).mpr h)) h2
        simp only [bookAdd, h1, h2, if_neg, Bool.false_eq_true, not_false_iff,
          ite_false, bookKeys_cons]
        refine List.pairwise_cons.mpr ⟨?_, ih htail⟩
        intro b hb
        rcases bookAdd_keys_subset before p o rest b hb with rfl | hb2
        · exact hqp
        · exact hhead b hb2

theorem bookRemoveId_keys_sublist (p : ℚ) (id : String) (bk : Book) :
    (bookKeys (bookRemoveId p id bk)).Sublist (bookKeys bk) := by
  induction bk with
  | nil => simp [bookRemoveId]
  | cons hd rest ih =>
    obtain ⟨q, lv⟩ := hd
    by_cases h1 : q = p
    · subst h1
      rw [bookRemoveId, if_pos rfl]
      by_cases h2 : (lv.filter (fun o => o.order_id ≠ id)).isEmpty
      · rw [if_pos h2]
        exact (List.sublist_cons_self q (bookKeys rest)).trans
          (List.Sublist.refl _) |>.trans (List.Sublist.refl _)
      · rw [if_neg h2]
        simp
    · rw [bookRemoveId, if_neg h1]
      simpa using ih.cons₂ q

/-! ### C3: the book is uncrossed after every operation -/

/-- Ask keys are strictly increasing. -/
def SortedAsks (bk : Book) : Prop := (bookKeys bk).Pairwise (· < ·)

/-- Bid keys are strictly decreasing. -/
def SortedBids (bk : Book) : Prop := (bookKeys bk).Pairwise (fun a b => b < a)

/-- The inductive invariant carrying C3. -/
def Inv3 (e : MatchEngine) : Prop :=
  SortedBids e.bids ∧ SortedAsks e.asks ∧ Uncrossed e

/-- What a valid BUY insert computes, spelled out. -/
theorem insert_ok_buy (e : MatchEngine) (id : String) (p sz : ℚ) (ts : Int)
    (hid : id ≠ "") (hp : 0 < p) (hsz : 0 < sz) (hts : 0 ≤ ts) :
    insert e id .BUY p sz ts =
      .ok ((matchBook ⟨id, .BUY, p, sz, ts⟩ e.asks e.order_map buyCross).1,
        if 0 < (matchBook ⟨id, .BUY, p, sz, ts⟩ e.asks
            e.order_map buyCross).2.1.size then
          ⟨bookAdd bidBefore p
             (matchBook ⟨id, .BUY, p, sz, ts⟩ e.asks e.order_map buyCross).2.1
             e.bids,
           (matchBook ⟨id, .BUY, p, sz, ts⟩ e.asks e.order_map buyCross).2.2.1,
           omapAssign id (.BUY, p)
             (matchBook ⟨id, .BUY, p, sz, ts⟩ e.asks e.order_map
               buyCross).2.2.2⟩
        else
          ⟨e.bids,
           (matchBook ⟨id, .BUY, p, sz, ts⟩ e.asks e.order_map buyCross).2.2.1,
           (matchBook ⟨id, .BUY, p, sz, ts⟩ e.asks e.order_map
             buyCross).2.2.2⟩) := by
  obtain ⟨s, hs⟩ :=
    matchBook_taker_eq ⟨id, .BUY, p, sz, ts⟩ e.asks e.order_map buyCross
  have hid2 : id.isEmpty = false := by
    rw [Bool.eq_false_iff]
    intro h
    exact hid ((String.isEmpty_iff id).mp h)
  rw [insert]
  simp only [hid2, Bool.false_eq_true, if_false, hp.not_le, hsz.not_le,
    hts.not_lt, if_neg, not_false_iff, ite_false]
  rw [match_buy]
  simp only [hsz.not_le, if_neg, not_false_iff, ite_false]
  by_cases hres : 0 < (matchBook ⟨id, .BUY, p, sz, ts⟩ e.asks
      e.order_map buyCross).2.1.size
  · rw [if_pos (by simpa using hres), if_pos hres, add_to_book]
    rw [hs] at hres ⊢
    simp only at hres
    simp [hres.not_le, hp.not_le, hid2]
  · rw [if_neg (by simpa using hres), if_neg hres]

/-- What a valid SELL insert computes, spelled out. -/
theorem insert_ok_sell (e : MatchEngine) (id : String) (p sz : ℚ) (ts : Int)
    (hid : id ≠ "") (hp : 0 < p) (hsz : 0 < sz) (hts : 0 ≤ ts) :
    insert e id .SELL p sz ts =
      .ok ((matchBook ⟨id, .SELL, p, sz, ts⟩ e.bids e.order_map sellCross).1,
        if 0 < (matchBook ⟨id, .SELL, p, sz, ts⟩ e.bids
            e.order_map sellCross).2.1.size then
          ⟨(matchBook ⟨id, .SELL, p, sz, ts⟩ e.bids e.order_map
              sellCross).2.2.1,
           bookAdd askBefore p
             (matchBook ⟨id, .SELL, p, sz, ts⟩ e.bids e.order_map
               sellCross).2.1
             e.asks,
           omapAssign id (.SELL, p)
             (matchBook ⟨id, .SELL, p, sz, ts⟩ e.bids e.order_map
               sellCross).2.2.2⟩
        else
          ⟨(matchBook ⟨id, .SELL, p, sz, ts⟩ e.bids e.order_map
              sellCross).2.2.1,
           e.asks,
           (matchBook ⟨id, .SELL, p, sz, ts⟩ e.bids e.order_map
             sellCross).2.2.2⟩) := by
  obtain ⟨s, hs⟩ :=
    matchBook_taker_eq ⟨id, .SELL, p, sz, ts⟩ e.bids e.order_map sellCross
  have hid2 : id.isEmpty = false := by
    rw [Bool.eq_false_iff]
    intro h
    exact hid ((String.isEmpty_iff id).mp h)
  rw [insert]
  simp only [hid2, Bool.false_eq_true, if_false, hp.not_le, hsz.not_le,
    hts.not_lt, if_neg, not_false_iff, ite_false]
  rw [match_sell]
  simp only [hsz.not_le, if_neg, not_false_iff, ite_false]
  by_cases hres : 0 < (matchBook ⟨id, .SELL, p, sz, ts⟩ e.bids
      e.order_map sellCross).2.1.size
  · rw [if_pos (by simpa using hres), if_pos hres, add_to_book]
    rw [hs] at hres ⊢
    simp only at hres
    simp [hres.not_le, hp.not_le, hid2]
  · rw [if_neg (by simpa using hres), if_neg hres]

/-- Invalid arguments make `insert` throw, so `step` keeps the state. -/
theorem step_ins_invalid (e : MatchEngine) (id : String) (side : Side)
    (p sz : ℚ) (ts : Int)
    (h : id = "" ∨ p ≤ 0 ∨ sz ≤ 0 ∨ ts < 0) :
    step e (.ins id side p sz ts) = e := by
  rw [step]
  rcases h with h | h | h | h
  · subst h; rfl
  · rw [insert]
    by_cases hid : id.isEmpty <;> simp [hid, h]
  · rw [insert]
    by_cases hid : id.isEmpty
    · simp [hid]
    · by_cases hp : p ≤ 0 <;> simp [hid, hp, h]
  · rw [insert]
    by_cases hid : id.isEmpty
    · simp [hid]
    · by_cases hp : p ≤ 0
      · simp [hid, hp]
      · by_cases hsz : sz ≤ 0 <;> simp [hid, hp, hsz, h]

theorem cancel_not_found (e : MatchEngine) (id : String) (hid : id ≠ "")
    (h : omapLookup id e.order_map = none) : cancel e id = .ok (false, e) := by
  rw [cancel]
  have hid2 : id.isEmpty = false := by
    rw [Bool.eq_false_iff]
    intro h2
    exact hid ((String.isEmpty_iff id).mp h2)
  simp [hid2, h]

theorem cancel_found_buy (e : MatchEngine) (id : String) (p : ℚ)
    (hid : id ≠ "") (h : omapLookup id e.order_map = some (.BUY, p)) :
    cancel e id =
      .ok (true, ⟨bookRemoveId p id e.bids, e.asks,
        omapErase id e.order_map⟩) := by
  rw [cancel]
  have hid2 : id.isEmpty = false := by
    rw [Bool.eq_false_iff]
    intro h2
    exact hid ((String.isEmpty_iff id).mp h2)
  simp [hid2, h]

theorem cancel_found_sell (e : MatchEngine) (id : String) (p : ℚ)
    (hid : id ≠ "") (h : omapLookup id e.order_map = some (.SELL, p)) :
    cancel e id =
      .ok (true, ⟨e.bids, bookRemoveId p id e.asks,
        omapErase id e.order_map⟩) := by
  rw [cancel]
  have hid2 : id.isEmpty = false := by
    rw [Bool.eq_false_iff]
    intro h2
    exact hid ((String.isEmpty_iff id).mp h2)
  simp [hid2, h]

theorem inv3_step (e : MatchEngine) (op : Op) (h : Inv3 e) :
    Inv3 (step e op) := by
  obtain ⟨hb, ha, hu⟩ := h
  cases op with
  | can id =>
    by_cases hid : id = ""
    · have : step e (.can id) = e := by rw [step]; subst hid; rfl
      rw [this]; exact ⟨hb, ha, hu⟩
    · match hlk : omapLookup id e.order_map with
      | none =>
        have : step e (.can id) = e := by
          rw [step, cancel_not_found e id hid hlk]
        rw [this]; exact ⟨hb, ha, hu⟩
      | some (.BUY, p) =>
        have hst : step e (.can id) =
            ⟨bookRemoveId p id e.bids, e.asks, omapErase id e.order_map⟩ := by
          rw [step, cancel_found_buy e id p hid hlk]
        rw [hst]
        refine ⟨hb.sublist (bookRemoveId_keys_sublist p id e.bids),
          ha, ?_⟩
        intro pb hpb pa hpa
        exact hu pb ((bookRemoveId_keys_sublist p id e.bids).subset hpb) pa hpa
      | some (.SELL, p) =>
        have hst : step e (.can id) =
            ⟨e.bids, bookRemoveId p id e.asks, omapErase id e.order_map⟩ := by
          rw [step, cancel_found_sell e id p hid hlk]
        rw [hst]
        refine ⟨hb, ha.sublist (bookRemoveId_keys_sublist p id e.asks), ?_⟩
        intro pb hpb pa hpa
        exact hu pb hpb pa ((bookRemoveId_keys_sublist p id e.asks).subset hpa)
  | ins id side p sz ts =>
    by_cases hid : id = ""
    · rw [step_ins_invalid e id side p sz ts (Or.inl hid)]; exact ⟨hb, ha, hu⟩
    · by_cases hp : 0 < p
      · by_cases hsz : 0 < sz
        · by_cases hts : 0 ≤ ts
          · cases side with
            | BUY =>
              have hins := insert_ok_buy e id p sz ts hid hp hsz hts
              have hsub := matchBook_keys_sublist ⟨id, .BUY, p, sz, ts⟩
                e.asks e.order_map buyCross
              by_cases hres :
                  0 < (matchBook ⟨id, .BUY, p, sz, ts⟩ e.asks
                    e.order_map buyCross).2.1.size
              · rw [if_pos hres] at hins
                have hst : step e (.ins id .BUY p sz ts) =
                    ⟨bookAdd bidBefore p
                       (matchBook ⟨id, .BUY, p, sz, ts⟩ e.asks e.order_map
                         buyCross).2.1 e.bids,
                     (matchBook ⟨id, .BUY, p, sz, ts⟩ e.asks e.order_map
                       buyCross).2.2.1,
                     omapAssign id (.BUY, p)
                       (matchBook ⟨id, .BUY, p, sz, ts⟩ e.asks e.order_map
                         buyCross).2.2.2⟩ := by
                  rw [step, hins]
                rw [hst]
                have hnc := matchBook_nocross_of_residual
                  (R := (· < ·)) ha ?hmono hres
                case hmono =>
                  intro a b hfa hab
                  have h3 : ¬ a ≤ p := by
                    simpa [buyCross] using hfa
                  simp only [buyCross, decide_eq_false_iff_not]
                  intro hble
                  exact h3 (le_of_lt (lt_of_lt_of_le hab hble))
                refine ⟨?_, ha.sublist hsub, ?_⟩
                · exact bookAdd_sorted (R := fun a b => b < a)
                    (fun a b => by simp [bidBefore])
                    (fun a b h1 h2 =>
                      lt_of_le_of_ne (not_lt.mp h1) h2)
                    (fun a b c h1 h2 => lt_trans h2 h1)
                    p _ hb
                · intro pb hpb pa hpa
                  rcases bookAdd_keys_subset bidBefore p _ e.bids pb hpb with
                    rfl | hpb2
                  · have h4 := hnc pa hpa
                    have h5 : ¬ pa ≤ pb := by
                      simpa [buyCross] using h4
                    exact not_le.mp h5
                  · exact hu pb hpb2 pa (hsub.subset hpa)
              · rw [if_neg hres] at hins
                have hst : step e (.ins id .BUY p sz ts) =
                    ⟨e.bids,
                     (matchBook ⟨id, .BUY, p, sz, ts⟩ e.asks e.order_map
                       buyCross).2.2.1,
                     (matchBook ⟨id, .BUY, p, sz, ts⟩ e.asks e.order_map
                       buyCross).2.2.2⟩ := by
                  rw [step, hins]
                rw [hst]
                refine ⟨hb, ha.sublist hsub, ?_⟩
                intro pb hpb pa hpa
                exact hu pb hpb pa (hsub.subset hpa)
            | SELL =>
              have hins := insert_ok_sell e id p sz ts hid hp hsz hts
              have hsub := matchBook_keys_sublist ⟨id, .SELL, p, sz, ts⟩
                e.bids e.order_map sellCross
              by_cases hres :
                  0 < (matchBook ⟨id, .SELL, p, sz, ts⟩ e.bids
                    e.order_map sellCross).2.1.size
              · rw [if_pos hres] at hins
                have hst : step e (.ins id .SELL p sz ts) =
                    ⟨(matchBook ⟨id, .SELL, p, sz, ts⟩ e.bids e.order_map
                        sellCross).2.2.1,
                     bookAdd askBefore p
                       (matchBook ⟨id, .SELL, p, sz, ts⟩ e.bids e.order_map
                         sellCross).2.1 e.asks,
                     omapAssign id (.SELL, p)
                       (matchBook ⟨id, .SELL, p, sz, ts⟩ e.bids e.order_map
                         sellCross).2.2.2⟩ := by
                  rw [step, hins]
                rw [hst]
                have hnc := matchBook_nocross_of_residual
                  (R := fun a b => b < a) hb ?hmono hres
                case hmono =>
                  intro a b hfa hab
                  have h3 : ¬ p ≤ a := by
                    simpa [sellCross] using hfa
                  simp only [sellCross, decide_eq_false_iff_not]
                  intro hble
                  exact h3 (le_of_lt (lt_of_le_of_lt hble hab))
                refine ⟨hb.sublist hsub, ?_, ?_⟩
                · exact bookAdd_sorted (R := (· < ·))
                    (fun a b => by simp [askBefore])
                    (fun a b h1 h2 =>
                      lt_of_le_of_ne (not_lt.mp h1) (Ne.symm h2))
                    (fun a b c h1 h2 => lt_trans h1 h2)
                    p _ ha
                · intro pb hpb pa hpa
                  rcases bookAdd_keys_subset askBefore p _ e.asks pa hpa with
                    rfl | hpa2
                  · have h4 := hnc pb hpb
                    have h5 : ¬ pa ≤ pb := by
                      simpa [sellCross] using h4
                    exact not_le.mp h5
                  · exact hu pb (hsub.subset hpb) pa hpa2
              · rw [if_neg hres] at hins
                have hst : step e (.ins id .SELL p sz ts) =
                    ⟨(matchBook ⟨id, .SELL, p, sz, ts⟩ e.bids e.order_map
                        sellCross).2.2.1,
                     e.asks,
                     (matchBook ⟨id, .SELL, p, sz, ts⟩ e.bids e.order_map
                       sellCross).2.2.2⟩ := by
                  rw [step, hins]
                rw [hst]
                refine ⟨hb.sublist hsub, ha, ?_⟩
                intro pb hpb pa hpa
                exact hu pb (hsub.subset hpb) pa hpa
          · rw [step_ins_invalid e id side p sz ts
              (Or.inr (Or.inr (Or.inr (not_le.mp hts))))]
            exact ⟨hb, ha, hu⟩
        · rw [step_ins_invalid e id side p sz ts
            (Or.inr (Or.inr (Or.inl (not_lt.mp hsz))))]
          exact ⟨hb, ha, hu⟩
      · rw [step_ins_invalid e id side p sz ts
          (Or.inr (Or.inl (not_lt.mp hp)))]
        exact ⟨hb, ha, hu⟩

theorem inv3_foldl (ops : List Op) (e : MatchEngine) (h : Inv3 e) :
    Inv3 (ops.foldl step e) := by
  induction ops generalizing e with
  | nil => exact h
  | cons op rest ih => exact ih (step e op) (inv3_step e op h)

theorem inv3_run (ops : List Op) : Inv3 (run ops) :=
  inv3_foldl ops engineEmpty
    ⟨List.Pairwise.nil, List.Pairwise.nil,
      by intro pb hpb; simp [engineEmpty] at hpb⟩

/-- C3: after every public operation (insert or cancel) starting from the
empty engine, the book is uncrossed: no BUY level at `p_b` and SELL level
at `p_a` with `p_b ≥ p_a` coexist, i.e. every bid price is strictly below
every ask price (hence best bid < best ask whenever both exist). -/
theorem C3_uncrossed_after_every_op (ops : List Op) : Uncrossed (run ops) :=
  (inv3_run ops).2.2

/-! ### C2 / C4: the source accepts duplicate-id inserts

The spec demands that an `insert` whose id is currently resting fail with
a validation error and leave the state untouched; `MatchEngine::insert`
never consults `order_map`, so the second insert below is accepted, a
second order with the same id comes to rest, and the index entry for the
first is silently overwritten. -/

/-- The engine after `insert("A", BUY, 100, 5, 0)` from empty. -/
def engineDup1 : MatchEngine :=
  ⟨[(100, [⟨"A", .BUY, 100, 5, 0⟩])], [], [("A", (.BUY, 100))]⟩

/-- The engine after a further `insert("A", BUY, 99, 5, 1)`: two resting
orders share the id "A" and the index points only at the second. -/
def engineDup2 : MatchEngine :=
  ⟨[(100, [⟨"A", .BUY, 100, 5, 0⟩]), (99, [⟨"A", .BUY, 99, 5, 1⟩])], [],
   [("A", (.BUY, 99))]⟩

/-- C2 (claim refuted by the code): inserting an id that is currently
resting does not fail with a validation error — the call succeeds and
mutates the books and the index. -/
theorem C2_duplicate_insert_accepted :
    (insert engineEmpty "A" .BUY 100 5 0).toOption = some ([], engineDup1) ∧
    (insert engineDup1 "A" .BUY 99 5 1).toOption = some ([], engineDup2) ∧
    engineDup2 ≠ engineDup1 := by
  refine ⟨by decide, by decide, by decide⟩

/-- C4 (claim refuted by the code): after the duplicate-id insert two
resting orders share the id "A", violating the index-lockstep invariant. -/
theorem C4_duplicate_resting_ids :
    run [.ins "A" .BUY 100 5 0, .ins "A" .BUY 99 5 1] = engineDup2 ∧
    restingIds engineDup2 = ["A", "A"] ∧
    ¬ (restingIds engineDup2).Nodup := by
  refine ⟨by decide, by decide, by decide⟩

/-! ### C7: insert-then-cancel of a non-crossing order is the identity -/

theorem omapLookup_eq_none {id : String} {om : OMap} :
    omapLookup id om = none ↔ id ∉ om.map Prod.fst := by
  induction om with
  | nil => simp [omapLookup]
  | cons hd rest ih =>
    obtain ⟨k, w⟩ := hd
    by_cases h : id = k
    · subst h
      simp [omapLookup]
    · simp [omapLookup, h, ih]

theorem omapLookup_assign_self (id : String) (v : Side × ℚ) (om : OMap) :
    omapLookup id (omapAssign id v om) = some v := by
  induction om with
  | nil => simp [omapAssign, omapLookup]
  | cons hd rest ih =>
    obtain ⟨k, w⟩ := hd
    by_cases h : id = k
    · subst h
      simp [omapAssign, omapLookup]
    · simp [omapAssign, omapLookup, h, ih]

theorem omapErase_assign {id : String} {om : OMap} (v : Side × ℚ)
    (h : id ∉ om.map Prod.fst) :
    omapErase id (omapAssign id v om) = om := by
  induction om with
  | nil => simp [omapAssign, omapErase]
  | cons hd rest ih =>
    obtain ⟨k, w⟩ := hd
    simp only [List.map_cons, List.mem_cons, not_or] at h
    rw [omapAssign, if_neg h.1, omapErase, if_neg h.1, ih h.2]

/-- A sweep in which already the best opposite level fails the cross test
leaves everything unchanged and emits no fills. -/
theorem matchBook_nocross_all {t : Order} {bk : Book} (om : OMap)
    {cross : ℚ → ℚ → Bool}
    (h : ∀ q ∈ bookKeys bk, cross q t.price = false) :
    matchBook t bk om cross = ([], t, bk, om) := by
  cases bk with
  | nil => rfl
  | cons hd rest =>
    obtain ⟨q, lv⟩ := hd
    exact matchBook_cons_nocross rest om cross
      (by simp [h q (by simp)])

/-- Appending a fresh order and then cancelling it restores the book,
provided no resting order shares its id and no level is empty. -/
theorem bookRemoveId_bookAdd {id : String} {o : Order} {bk : Book}
    (before : ℚ → ℚ → Bool) (p : ℚ)
    (hne : ∀ x ∈ bk, x.2 ≠ [])
    (hid : ∀ u ∈ bookOrders bk, u.order_id ≠ id)
    (ho : o.order_id = id) :
    bookRemoveId p id (bookAdd before p o bk) = bk := by
  induction bk with
  | nil =>
    simp [bookAdd, bookRemoveId, ho]
  | cons hd rest ih =>
    obtain ⟨q, lv⟩ := hd
    have hlv : ∀ u ∈ lv, u.order_id ≠ id := by
      intro u hu
      exact hid u (by simp [bookOrders, hu])
    have hrest : ∀ u ∈ bookOrders rest, u.order_id ≠ id := by
      intro u hu
      exact hid u (by simp [bookOrders, hu])
    by_cases h1 : before p q
    · rw [bookAdd, if_pos h1, bookRemoveId, if_pos rfl]
      simp [ho, List.filter_eq_nil_iff]
    · by_cases h2 : p = q
      · subst h2
        rw [bookAdd, if_neg h1, if_pos rfl, bookRemoveId, if_pos rfl]
        have hfil : (lv ++ [o]).filter (fun u => u.order_id ≠ id) = lv := by
          rw [List.filter_append]
          have h3 : lv.filter (fun u => u.order_id ≠ id) = lv :=
            List.filter_eq_self.mpr (fun u hu => by simpa using hlv u hu)
          have h4 : [o].filter (fun u => u.order_id ≠ id) = [] := by
            simp [ho]
          rw [h3, h4, List.append_nil]
        rw [hfil]
        have hlvne : ¬ lv.isEmpty := by
          simpa [List.isEmpty_iff] using hne (p, lv) (by simp)
        rw [if_neg (by simpa [List.isEmpty_iff] using hlvne)]
      · rw [bookAdd, if_neg h1, if_neg h2, bookRemoveId,
          if_neg (fun h => h2 h.symm),
          ih (fun x hx => hne x (by simp [hx])) hrest]

/-- C7: for every engine and every valid, currently-unknown id whose
order does not cross (a BUY priced below every ask, a SELL priced above
every bid), `insert` followed by `cancel` of that id returns the engine —
bid book, ask book and index — to exactly the pre-insert state, and the
insert emits no fills. -/
theorem C7_insert_then_cancel (e : MatchEngine) (id : String) (side : Side)
    (p sz : ℚ) (ts : Int)
    (hid : id ≠ "") (hp : 0 < p) (hsz : 0 < sz) (hts : 0 ≤ ts)
    (hfresh : omapLookup id e.order_map = none)
    (hnorest : ∀ o ∈ bookOrders e.bids ++ bookOrders e.asks, o.order_id ≠ id)
    (hne : ∀ x ∈ ownBook e side, x.2 ≠ [])
    (hnc : ∀ q ∈ bookKeys (oppBook e side),
      (match side with | .BUY => p < q | .SELL => q < p)) :
    ∃ e1, insert e id side p sz ts = .ok ([], e1) ∧
      cancel e1 id = .ok (true, e) := by
  have hfresh2 : id ∉ e.order_map.map Prod.fst := omapLookup_eq_none.mp hfresh
  cases side with
  | BUY =>
    have hcr : ∀ q ∈ bookKeys e.asks,
        buyCross q (Order.price ⟨id, .BUY, p, sz, ts⟩) = false := by
      intro q hq
      have := hnc q (by simpa [oppBook] using hq)
      simp only [buyCross, decide_eq_false_iff_not]
      simpa using not_le.mpr this
    have hmb := matchBook_nocross_all (t := ⟨id, .BUY, p, sz, ts⟩)
      e.order_map hcr
    have hins := insert_ok_buy e id p sz ts hid hp hsz hts
    rw [hmb] at hins
    simp only at hins
    rw [if_pos hsz] at hins
    refine ⟨⟨bookAdd bidBefore p ⟨id, .BUY, p, sz, ts⟩ e.bids, e.asks,
      omapAssign id (.BUY, p) e.order_map⟩, by exact hins, ?_⟩
    have hlk : omapLookup id (omapAssign id (.BUY, p) e.order_map) =
        some (.BUY, p) := omapLookup_assign_self id _ _
    rw [cancel_found_buy _ id p hid hlk]
    simp only
    rw [bookRemoveId_bookAdd bidBefore p (by simpa [ownBook] using hne)
        (fun u hu => hnorest u (by simp [hu])) rfl,
      omapErase_assign _ hfresh2]
  | SELL =>
    have hcr : ∀ q ∈ bookKeys e.bids,
        sellCross q (Order.price ⟨id, .SELL, p, sz, ts⟩) = false := by
      intro q hq
      have := hnc q (by simpa [oppBook] using hq)
      simp only [sellCross, decide_eq_false_iff_not]
      simpa using not_le.mpr this
    have hmb := matchBook_nocross_all (t := ⟨id, .SELL, p, sz, ts⟩)
      e.order_map hcr
    have hins := insert_ok_sell e id p sz ts hid hp hsz hts
    rw [hmb] at hins
    simp only at hins
    rw [if_pos hsz] at hins
    refine ⟨⟨e.bids, bookAdd askBefore p ⟨id, .SELL, p, sz, ts⟩ e.asks,
      omapAssign id (.SELL, p) e.order_map⟩, by exact hins, ?_⟩
    have hlk : omapLookup id (omapAssign id (.SELL, p) e.order_map) =
        some (.SELL, p) := omapLookup_assign_self id _ _
    rw [cancel_found_sell _ id p hid hlk]
    simp only
    rw [bookRemoveId_bookAdd askBefore p (by simpa [ownBook] using hne)
        (fun u hu => hnorest u (by simp [hu])) rfl,
      omapErase_assign _ hfresh2]

/-- A small engine with liquidity on both sides, for the C7 witness. -/
def engineNC : MatchEngine :=
  ⟨[(98, [⟨"C", .BUY, 98, 4, 0⟩])], [(100, [⟨"A", .SELL, 100, 5, 0⟩])],
   [("C", (.BUY, 98)), ("A", (.SELL, 100))]⟩

/-- Witness for C7 at a concrete non-crossing BUY insert. -/
theorem C7_witness :
    ∃ e1, insert engineNC "B" .BUY 99 5 7 = .ok ([], e1) ∧
      cancel e1 "B" = .ok (true, engineNC) :=
  C7_insert_then_cancel engineNC "B" .BUY 99 5 7 (by decide) (by decide)
    (by decide) (by decide) (by decide) (by decide) (by decide) (by decide)

/-! ### C5: the cancel contract -/

theorem omapLookup_mem {id : String} {v : Side × ℚ} {om : OMap}
    (h : omapLookup id om = some v) : (id, v) ∈ om := by
  induction om with
  | nil => simp [omapLookup] at h
  | cons hd rest ih =>
    obtain ⟨k, w⟩ := hd
    by_cases h2 : id = k
    · subst h2
      rw [omapLookup, if_pos rfl] at h
      obtain rfl : w = v := by simpa using h
      simp
    · rw [omapLookup, if_neg h2] at h
      simp [ih h]

theorem omapLookup_erase_self {id : String} {om : OMap}
    (hnd : (om.map Prod.fst).Nodup) :
    omapLookup id (omapErase id om) = none := by
  induction om with
  | nil => simp [omapErase, omapLookup]
  | cons hd rest ih =>
    obtain ⟨k, w⟩ := hd
    simp only [List.map_cons, List.nodup_cons] at hnd
    by_cases h2 : id = k
    · subst h2
      rw [omapErase, if_pos rfl, omapLookup_eq_none]
      exact hnd.1
    · rw [omapErase, if_neg h2, omapLookup, if_neg h2]
      exact ih hnd.2

theorem levelOf_sublist (q : ℚ) (bk : Book) :
    (levelOf q bk).Sublist (bookOrders bk) := by
  induction bk with
  | nil => simp [levelOf, bookOrders]
  | cons hd rest ih =>
    obtain ⟨k, lv⟩ := hd
    by_cases h : k = q
    · rw [levelOf, if_pos h, bookOrders]
      exact List.sublist_append_left lv (bookOrders rest)
    · rw [levelOf, if_neg h, bookOrders]
      exact ih.trans (List.sublist_append_right lv (bookOrders rest))

theorem bookRemoveId_levelOf_ne (p : ℚ) (id : String) {q : ℚ} (hq : q ≠ p)
    (bk : Book) : levelOf q (bookRemoveId p id bk) = levelOf q bk := by
  induction bk with
  | nil => simp [bookRemoveId]
  | cons hd rest ih =>
    obtain ⟨k, lv⟩ := hd
    by_cases h1 : k = p
    · subst h1
      rw [bookRemoveId, if_pos rfl]
      by_cases h2 : (lv.filter (fun o => o.order_id ≠ id)).isEmpty
      · rw [if_pos h2, levelOf, if_neg (fun h => hq h.symm)]
      · rw [if_neg h2, levelOf, if_neg (fun h => hq h.symm), levelOf,
          if_neg (fun h => hq h.symm)]
    · rw [bookRemoveId, if_neg h1]
      by_cases h2 : k = q
      · rw [levelOf, if_pos h2, levelOf, if_pos h2]
      · rw [levelOf, if_neg h2, levelOf, if_neg h2, ih]

theorem levelOf_eq_nil_of_not_mem {q : ℚ} {bk : Book}
    (h : q ∉ bookKeys bk) : levelOf q bk = [] := by
  induction bk with
  | nil => rfl
  | cons hd rest ih =>
    obtain ⟨k, lv⟩ := hd
    rw [bookKeys_cons, List.mem_cons, not_or] at h
    rw [levelOf, if_neg (fun h2 => h.1 h2.symm)]
    exact ih h.2

theorem bookRemoveId_levelOf_self (p : ℚ) (id : String) {bk : Book}
    (hkeys : (bookKeys bk).Nodup) :
    levelOf p (bookRemoveId p id bk) =
      (levelOf p bk).filter (fun o => o.order_id ≠ id) := by
  induction bk with
  | nil => simp [bookRemoveId, levelOf]
  | cons hd rest ih =>
    obtain ⟨k, lv⟩ := hd
    rw [bookKeys_cons, List.nodup_cons] at hkeys
    by_cases h1 : k = p
    · subst h1
      rw [bookRemoveId, if_pos rfl, levelOf, if_pos rfl]
      by_cases h2 : (lv.filter (fun o => o.order_id ≠ id)).isEmpty
      · rw [if_pos h2, levelOf_eq_nil_of_not_mem hkeys.1]
        exact ((List.isEmpty_iff).mp h2).symm
      · rw [if_neg h2, levelOf, if_pos rfl]
    · rw [bookRemoveId, if_neg h1, levelOf, if_neg h1, levelOf, if_neg h1]
      exact ih hkeys.2

theorem bookRemoveId_key_gone (p : ℚ) (id : String) {bk : Book}
    (hkeys : (bookKeys bk).Nodup)
    (hfil : (levelOf p bk).filter (fun o => o.order_id ≠ id) = []) :
    p ∉ bookKeys (bookRemoveId p id bk) := by
  induction bk with
  | nil => simp [bookRemoveId]
  | cons hd rest ih =>
    obtain ⟨k, lv⟩ := hd
    rw [bookKeys_cons, List.nodup_cons] at hkeys
    by_cases h1 : k = p
    · subst h1
      rw [levelOf, if_pos rfl] at hfil
      rw [bookRemoveId, if_pos rfl, if_pos (by rw [hfil]; rfl)]
      intro hmem
      exact hkeys.1 hmem
    · rw [levelOf, if_neg h1] at hfil
      rw [bookRemoveId, if_neg h1, bookKeys_cons]
      intro hmem
      rcases List.mem_cons.mp hmem with h | h
      · exact h1 h.symm
      · exact ih hkeys.2 hfil h

/-- Well-formed engine state: the spec's §3 invariants (sorted books,
non-empty levels, positive resting sizes, index in lockstep with the
books, unique ids).  Every conjunct is decidable, so a concrete state can
discharge it by `decide`. -/
def EngineWF (e : MatchEngine) : Prop :=
  SortedBids e.bids ∧ SortedAsks e.asks ∧
  (∀ x ∈ e.bids, x.2 ≠ []) ∧ (∀ x ∈ e.asks, x.2 ≠ []) ∧
  (∀ o ∈ bookOrders e.bids, 0 < o.size) ∧
  (∀ o ∈ bookOrders e.asks, 0 < o.size) ∧
  (restingIds e).Nodup ∧
  (e.order_map.map Prod.fst).Nodup ∧
  (∀ id ∈ e.order_map.map Prod.fst, id ∈ restingIds e) ∧
  (∀ id ∈ restingIds e, id ∈ e.order_map.map Prod.fst) ∧
  (∀ en ∈ e.order_map,
    ∃ o ∈ levelOf en.2.2 (ownBook e en.2.1), o.order_id = en.1)

instance (e : MatchEngine) : Decidable (EngineWF e) := by
  unfold EngineWF SortedBids SortedAsks
  infer_instance

/-- C5: for every non-empty id on a well-formed engine: cancelling a
non-resting id returns `false` and leaves the state untouched; cancelling
a resting id returns `true`, removes exactly that one order from its
level (pruning the level if it empties), erases the index entry, leaves
the opposite book untouched, and makes a subsequent cancel of the same id
return `false`.  (`cancel` returns no fills by construction.) -/
theorem C5_cancel_contract (e : MatchEngine) (id : String)
    (hid : id ≠ "") (hwf : EngineWF e) :
    (id ∉ restingIds e → cancel e id = .ok (false, e)) ∧
    (id ∈ restingIds e →
      ∃ s p l1 o l2 e2,
        omapLookup id e.order_map = some (s, p) ∧
        o.order_id = id ∧
        levelOf p (ownBook e s) = l1 ++ o :: l2 ∧
        (∀ u ∈ l1 ++ l2, u.order_id ≠ id) ∧
        cancel e id = .ok (true, e2) ∧
        oppBook e2 s = oppBook e s ∧
        e2.order_map = omapErase id e.order_map ∧
        omapLookup id e2.order_map = none ∧
        levelOf p (ownBook e2 s) = l1 ++ l2 ∧
        (∀ q, q ≠ p → levelOf q (ownBook e2 s) = levelOf q (ownBook e s)) ∧
        (l1 ++ l2 = [] → p ∉ bookKeys (ownBook e2 s)) ∧
        cancel e2 id = .ok (false, e2)) := by
  obtain ⟨hb, ha, hneb, hnea, hszb, hsza, hnodr, hnodk, hdom1, hdom2, hpt⟩ :=
    hwf
  have hkeysb : (bookKeys e.bids).Nodup := hb.imp (fun h => ne_of_gt h)
  have hkeysa : (bookKeys e.asks).Nodup := ha.imp (fun h => ne_of_lt h)
  constructor
  · intro hnr
    have hnone : omapLookup id e.order_map = none := by
      match h : omapLookup id e.order_map with
      | none => rfl
      | some v =>
        exact absurd (hdom1 id (by
          have := omapLookup_mem h
          exact List.mem_map.mpr ⟨(id, v), this, rfl⟩)) hnr
    exact cancel_not_found e id hid hnone
  · intro hin
    have hkey : id ∈ e.order_map.map Prod.fst := hdom2 id hin
    obtain ⟨v, hlk⟩ : ∃ v, omapLookup id e.order_map = some v := by
      match h : omapLookup id e.order_map with
      | none => exact absurd (omapLookup_eq_none.mp h) (by simpa using hkey)
      | some v => exact ⟨v, rfl⟩
    obtain ⟨s, p⟩ := v
    obtain ⟨o, homem, hoid⟩ := hpt (id, (s, p)) (omapLookup_mem hlk)
    obtain ⟨l1, l2, hlv⟩ := List.append_of_mem homem
    have hsub2 : ((levelOf p (ownBook e s)).map Order.order_id).Sublist
        (restingIds e) := by
      have hsubl := (levelOf_sublist p (ownBook e s)).map Order.order_id
      cases s with
      | BUY =>
        refine hsubl.trans ?_
        rw [restingIds, List.map_append]
        exact List.sublist_append_left _ _
      | SELL =>
        refine hsubl.trans ?_
        rw [restingIds, List.map_append]
        exact List.sublist_append_right _ _
    have hnodlv : ((levelOf p (ownBook e s)).map Order.order_id).Nodup :=
      hnodr.sublist hsub2
    rw [hlv, List.map_append, List.map_cons, hoid] at hnodlv
    have hnot : ∀ u ∈ l1 ++ l2, u.order_id ≠ id := by
      intro u hu hequ
      rcases List.mem_append.mp hu with hu1 | hu2
      · have hmem1 : id ∈ l1.map Order.order_id :=
          List.mem_map.mpr ⟨u, hu1, hequ⟩
        have hdisj := (List.nodup_append.mp hnodlv).2.2
        exact List.disjoint_left.mp hdisj hmem1 (List.mem_cons_self id _)
      · have hmem2 : id ∈ l2.map Order.order_id :=
          List.mem_map.mpr ⟨u, hu2, hequ⟩
        have := ((List.nodup_append.mp hnodlv).2.1)
        exact (List.nodup_cons.mp this).1 hmem2
    have hfil : (l1 ++ o :: l2).filter (fun u => u.order_id ≠ id) =
        l1 ++ l2 := by
      rw [List.filter_append, List.filter_cons]
      have h1 : l1.filter (fun u => decide (u.order_id ≠ id)) = l1 :=
        List.filter_eq_self.mpr (fun u hu => by
          simpa using hnot u (List.mem_append_left l2 hu))
      have h2 : l2.filter (fun u => decide (u.order_id ≠ id)) = l2 :=
        List.filter_eq_self.mpr (fun u hu => by
          simpa using hnot u (List.mem_append_right l1 hu))
      rw [h1, h2, if_neg (by simp [hoid])]
    cases s with
    | BUY =>
      refine ⟨.BUY, p, l1, o, l2,
        ⟨bookRemoveId p id e.bids, e.asks, omapErase id e.order_map⟩,
        hlk, hoid, hlv, hnot, cancel_found_buy e id p hid hlk, rfl, rfl,
        omapLookup_erase_self hnodk, ?_, ?_, ?_, ?_⟩
      · show levelOf p (bookRemoveId p id e.bids) = l1 ++ l2
        rw [bookRemoveId_levelOf_self p id hkeysb]
        rw [show levelOf p (ownBook e .BUY) = levelOf p e.bids from rfl]
          at hlv
        rw [hlv, hfil]
      · intro q hq
        exact bookRemoveId_levelOf_ne p id hq e.bids
      · intro hnil
        apply bookRemoveId_key_gone p id hkeysb
        rw [show levelOf p (ownBook e .BUY) = levelOf p e.bids from rfl]
          at hlv
        rw [hlv, hfil, hnil]
      · exact cancel_not_found _ id hid (omapLookup_erase_self hnodk)
    | SELL =>
      refine ⟨.SELL, p, l1, o, l2,
        ⟨e.bids, bookRemoveId p id e.asks, omapErase id e.order_map⟩,
        hlk, hoid, hlv, hnot, cancel_found_sell e id p hid hlk, rfl, rfl,
        omapLookup_erase_self hnodk, ?_, ?_, ?_, ?_⟩
      · show levelOf p (bookRemoveId p id e.asks) = l1 ++ l2
        rw [bookRemoveId_levelOf_self p id hkeysa]
        rw [show levelOf p (ownBook e .SELL) = levelOf p e.asks from rfl]
          at hlv
        rw [hlv, hfil]
      · intro q hq
        exact bookRemoveId_levelOf_ne p id hq e.asks
      · intro hnil
        apply bookRemoveId_key_gone p id hkeysa
        rw [show levelOf p (ownBook e .SELL) = levelOf p e.asks from rfl]
          at hlv
        rw [hlv, hfil, hnil]
      · exact cancel_not_found _ id hid (omapLookup_erase_self hnodk)

/-- Witness for C5 at a concrete resting id. -/
theorem C5_witness :
    ∃ s p l1 o l2 e2,
      omapLookup "A" engineNC.order_map = some (s, p) ∧
      o.order_id = "A" ∧
      levelOf p (ownBook engineNC s) = l1 ++ o :: l2 ∧
      (∀ u ∈ l1 ++ l2, u.order_id ≠ "A") ∧
      cancel engineNC "A" = .ok (true, e2) ∧
      oppBook e2 s = oppBook engineNC s ∧
      e2.order_map = omapErase "A" engineNC.order_map ∧
      omapLookup "A" e2.order_map = none ∧
      levelOf p (ownBook e2 s) = l1 ++ l2 ∧
      (∀ q, q ≠ p → levelOf q (ownBook e2 s) = levelOf q (ownBook engineNC s)) ∧
      (l1 ++ l2 = [] → p ∉ bookKeys (ownBook e2 s)) ∧
      cancel e2 "A" = .ok (false, e2) :=
  (C5_cancel_contract engineNC "A" (by decide) (by decide)).2 (by decide)

/-! ### C8: size conservation -/

theorem sumFills_nil : sumFills [] = 0 := rfl

theorem sumFills_cons (f : Fill) (fs : List Fill) :
    sumFills (f :: fs) = f.size + sumFills fs := by
  simp [sumFills]

theorem sumFills_append (fs gs : List Fill) :
    sumFills (fs ++ gs) = sumFills fs + sumFills gs := by
  simp [sumFills]

theorem levelSum_nil : levelSum [] = 0 := rfl

theorem levelSum_cons (o : Order) (os : List Order) :
    levelSum (o :: os) = o.size + levelSum os := by
  simp [levelSum]

theorem levelSum_append (os us : List Order) :
    levelSum (os ++ us) = levelSum os + levelSum us := by
  simp [levelSum]

theorem bookSum_bookAdd (before : ℚ → ℚ → Bool) (p : ℚ) (o : Order)
    (bk : Book) :
    bookSum (bookAdd before p o bk) = bookSum bk + o.size := by
  induction bk with
  | nil => simp [bookAdd, bookSum, levelSum]
  | cons hd rest ih =>
    obtain ⟨q, lv⟩ := hd
    by_cases h1 : before p q
    · rw [bookAdd, if_pos h1]
      show levelSum [o] + (levelSum lv + bookSum rest) =
        levelSum lv + bookSum rest + o.size
      simp [levelSum]
      ring
    · by_cases h2 : p = q
      · subst h2
        rw [bookAdd, if_neg h1, if_pos rfl]
        show levelSum (lv ++ [o]) + bookSum rest =
          levelSum lv + bookSum rest + o.size
        rw [levelSum_append]
        simp [levelSum]
        ring
      · rw [bookAdd, if_neg h1, if_neg h2]
        show levelSum lv + bookSum (bookAdd before p o rest) =
          levelSum lv + bookSum rest + o.size
        rw [ih]
        ring

/-- Bundled accounting facts for the inner loop: the fills total what the
taker lost, equal what the level lost; every fill is positive; sizes stay
positive / non-negative. -/
theorem matchLevel_conserve {t : Order} {os : List Order} (om : OMap)
    (q : ℚ) (h0 : 0 ≤ t.size) (hpos : ∀ o ∈ os, 0 < o.size) :
    sumFills (matchLevel t os om q).1 =
      t.size - (matchLevel t os om q).2.1.size ∧
    levelSum os =
      levelSum (matchLevel t os om q).2.2.1 +
        sumFills (matchLevel t os om q).1 ∧
    (∀ f ∈ (matchLevel t os om q).1, 0 < f.size) ∧
    0 ≤ (matchLevel t os om q).2.1.size ∧
    (∀ o ∈ (matchLevel t os om q).2.2.1, 0 < o.size) := by
  induction os generalizing t om with
  | nil =>
    rw [matchLevel_nil]
    simp [sumFills, levelSum, h0]
  | cons maker rest ih =>
    have hm := hpos maker (by simp)
    have hrest : ∀ o ∈ rest, 0 < o.size := fun o ho => hpos o (by simp [ho])
    by_cases hz : t.size ≤ 0
    · rw [matchLevel_of_nonpos _ _ _ hz]
      refine ⟨by simp [sumFills], by simp [sumFills], by simp [sumFills],
        h0, hpos⟩
    · by_cases hstale : maker.size ≤ 0
      · exact absurd hm (by linarith)
      · have hmle_t : min t.size maker.size ≤ t.size := min_le_left _ _
        have hmle_mk : min t.size maker.size ≤ maker.size := min_le_right _ _
        have hmpos : 0 < min t.size maker.size :=
          lt_min (not_le.mp hz) hm
        by_cases hx : maker.size - min t.size maker.size ≤ 0
        · rw [matchLevel_cons_erase rest om q hz hstale hx]
          obtain ⟨ih1, ih2, ih3, ih4, ih5⟩ :=
            ih (t := { t with size := t.size - min t.size maker.size })
              (omapErase maker.order_id om) (by simp) hrest
          have hms : min t.size maker.size = maker.size :=
            le_antisymm hmle_mk (by linarith)
          refine ⟨?_, ?_, ?_, ih4, ih5⟩
          · rw [sumFills_cons, ih1]
            simp only
            ring
          · rw [levelSum_cons, ih2, sumFills_cons]
            simp only
            rw [hms]
            ring
          · intro f hf
            rcases List.mem_cons.mp hf with rfl | hf2
            · exact hmpos
            · exact ih3 f hf2
        · have hmt : min t.size maker.size = t.size := by
            rcases le_total t.size maker.size with h | h
            · exact min_eq_left h
            · exact absurd (by
                rw [min_eq_right h]; simp) hx
          rw [matchLevel_cons_keep rest om q hz hstale hx,
            matchLevel_of_nonpos _ _ _ (by simp [hmt])]
          refine ⟨?_, ?_, ?_, by simp [hmt], ?_⟩
          · simp [sumFills, hmt]
          · rw [levelSum_cons, levelSum_cons]
            simp [sumFills, hmt]
            ring
          · intro f hf
            rcases List.mem_cons.mp hf with rfl | hf2
            · exact hmpos
            · simp at hf2
          · intro o ho
            rcases List.mem_cons.mp ho with rfl | ho2
            · simpa using not_le.mp hx
            · exact hrest o ho2

/-- Bundled accounting facts for the outer loop. -/
theorem matchBook_conserve {t : Order} {bk : Book} (om : OMap)
    (cross : ℚ → ℚ → Bool) (h0 : 0 ≤ t.size)
    (hpos : ∀ o ∈ bookOrders bk, 0 < o.size) :
    sumFills (matchBook t bk om cross).1 =
      t.size - (matchBook t bk om cross).2.1.size ∧
    bookSum bk =
      bookSum (matchBook t bk om cross).2.2.1 +
        sumFills (matchBook t bk om cross).1 ∧
    (∀ f ∈ (matchBook t bk om cross).1, 0 < f.size) ∧
    0 ≤ (matchBook t bk om cross).2.1.size ∧
    (∀ o ∈ bookOrders (matchBook t bk om cross).2.2.1, 0 < o.size) := by
  induction bk generalizing t om with
  | nil =>
    rw [show matchBook t [] om cross = ([], t, [], om) from rfl]
    simp [sumFills, bookSum, bookOrders, h0]
  | cons hd rest ih =>
    obtain ⟨q, lv⟩ := hd
    have hlv : ∀ o ∈ lv, 0 < o.size := fun o ho =>
      hpos o (by simp [bookOrders, ho])
    have hrest : ∀ o ∈ bookOrders rest, 0 < o.size := fun o ho =>
      hpos o (by simp [bookOrders, ho])
    by_cases hz : t.size ≤ 0
    · rw [matchBook_of_nonpos _ _ _ hz]
      exact ⟨by simp [sumFills], by simp [sumFills], by simp [sumFills],
        h0, hpos⟩
    · by_cases hc : cross q t.price
      · obtain ⟨l1, l2, l3, l4, l5⟩ := matchLevel_conserve om q
          (le_of_lt (not_le.mp hz)) hlv
        obtain ⟨i1, i2, i3, i4, i5⟩ :=
          ih (t := (matchLevel t lv om q).2.1)
            ((matchLevel t lv om q).2.2.2) l4 hrest
        rw [matchBook_cons_cross rest om cross hz hc]
        by_cases he : (matchLevel t lv om q).2.2.1.isEmpty
        · have hlv0 : levelSum (matchLevel t lv om q).2.2.1 = 0 := by
            rw [List.isEmpty_iff.mp he]; rfl
          rw [if_pos he]
          refine ⟨?_, ?_, ?_, i4, i5⟩
          · rw [sumFills_append, l1, i1]
            ring
          · rw [bookSum, sumFills_append, i2, l2, hlv0]
            ring
          · intro f hf
            rcases List.mem_append.mp hf with hf1 | hf2
            · exact l3 f hf1
            · exact i3 f hf2
        · rw [if_neg he]
          refine ⟨?_, ?_, ?_, i4, ?_⟩
          · rw [sumFills_append, l1, i1]
            ring
          · rw [bookSum, sumFills_append, i2, l2, bookSum]
            ring
          · intro f hf
            rcases List.mem_append.mp hf with hf1 | hf2
            · exact l3 f hf1
            · exact i3 f hf2
          · intro o ho
            rw [bookOrders] at ho
            rcases List.mem_append.mp ho with ho1 | ho2
            · exact l5 o ho1
            · exact i5 o ho2
      · rw [matchBook_cons_nocross rest om cross hc]
        exact ⟨by simp [sumFills], by simp [sumFills], by simp [sumFills],
          le_of_lt (not_le.mp hz), hpos⟩

/-- C8: an insert conserves size: the fills total exactly the decrease in
opposite-side resting size, and exactly the taker's original size minus
what came to rest on its own side (`0` when fully consumed); every fill
is strictly positive. -/
theorem C8_size_conservation (e : MatchEngine) (id : String) (side : Side)
    (p sz : ℚ) (ts : Int)
    (hid : id ≠ "") (hp : 0 < p) (hsz : 0 < sz) (hts : 0 ≤ ts)
    (hpos : ∀ o ∈ bookOrders (oppBook e side), 0 < o.size) :
    ∃ fills e2, insert e id side p sz ts = .ok (fills, e2) ∧
      sumFills fills =
        bookSum (oppBook e side) - bookSum (oppBook e2 side) ∧
      sumFills fills =
        sz - (bookSum (ownBook e2 side) - bookSum (ownBook e side)) ∧
      (∀ f ∈ fills, 0 < f.size) := by
  cases side with
  | BUY =>
    obtain ⟨c1, c2, c3, c4, c5⟩ :=
      matchBook_conserve (t := ⟨id, .BUY, p, sz, ts⟩) e.order_map buyCross
        (by simpa using le_of_lt hsz) (by simpa [oppBook] using hpos)
    have hins := insert_ok_buy e id p sz ts hid hp hsz hts
    by_cases hres : 0 < (matchBook ⟨id, .BUY, p, sz, ts⟩ e.asks
        e.order_map buyCross).2.1.size
    · rw [if_pos hres] at hins
      refine ⟨_, _, hins, ?_, ?_, c3⟩
      · simpa [oppBook] using by linarith [c2]
      · simp only [ownBook, oppBook]
        rw [bookSum_bookAdd]
        simpa using by linarith [c1]
    · rw [if_neg hres] at hins
      have hzero : (matchBook ⟨id, .BUY, p, sz, ts⟩ e.asks
          e.order_map buyCross).2.1.size = 0 :=
        le_antisymm (not_lt.mp hres) c4
      refine ⟨_, _, hins, ?_, ?_, c3⟩
      · simpa [oppBook] using by linarith [c2]
      · simp only [ownBook, oppBook]
        rw [c1, hzero]
        simp
  | SELL =>
    obtain ⟨c1, c2, c3, c4, c5⟩ :=
      matchBook_conserve (t := ⟨id, .SELL, p, sz, ts⟩) e.order_map sellCross
        (by simpa using le_of_lt hsz) (by simpa [oppBook] using hpos)
    have hins := insert_ok_sell e id p sz ts hid hp hsz hts
    by_cases hres : 0 < (matchBook ⟨id, .SELL, p, sz, ts⟩ e.bids
        e.order_map sellCross).2.1.size
    · rw [if_pos hres] at hins
      refine ⟨_, _, hins, ?_, ?_, c3⟩
      · simpa [oppBook] using by linarith [c2]
      · simp only [ownBook, oppBook]
        rw [bookSum_bookAdd]
        simpa using by linarith [c1]
    · rw [if_neg hres] at hins
      have hzero : (matchBook ⟨id, .SELL, p, sz, ts⟩ e.bids
          e.order_map sellCross).2.1.size = 0 :=
        le_antisymm (not_lt.mp hres) c4
      refine ⟨_, _, hins, ?_, ?_, c3⟩
      · simpa [oppBook] using by linarith [c2]
      · simp only [ownBook, oppBook]
        rw [c1, hzero]
        simp

/-- Witness for C8: a BUY that sweeps the 100-ask and rests the rest. -/
theorem C8_witness :
    ∃ fills e2, insert engineNC "B" .BUY 101 7 9 = .ok (fills, e2) ∧
      sumFills fills =
        bookSum (oppBook engineNC .BUY) - bookSum (oppBook e2 .BUY) ∧
      sumFills fills =
        7 - (bookSum (ownBook e2 .BUY) - bookSum (ownBook engineNC .BUY)) ∧
      (∀ f ∈ fills, 0 < f.size) :=
  C8_size_conservation engineNC "B" .BUY 101 7 9 (by decide) (by decide)
    (by decide) (by decide) (by decide)

/-! ### C9: an insert never disturbs its own side except by appending -/

instance (bk : Book) : Decidable (SortedBids bk) := by
  unfold SortedBids
  infer_instance

instance (bk : Book) : Decidable (SortedAsks bk) := by
  unfold SortedAsks
  infer_instance

theorem bookAdd_levelOf_ne (before : ℚ → ℚ → Bool) (p : ℚ) (o : Order)
    {q : ℚ} (hq : q ≠ p) (bk : Book) :
    levelOf q (bookAdd before p o bk) = levelOf q bk := by
  have hpq : ¬ (p = q) := fun h => hq h.symm
  induction bk with
  | nil => simp [bookAdd, levelOf, hpq]
  | cons hd rest ih =>
    obtain ⟨k, lv⟩ := hd
    by_cases h1 : before p k
    · simp [bookAdd, h1, levelOf, hpq]
    · by_cases h2 : p = k
      · subst h2
        simp [bookAdd, h1, levelOf, hpq]
      · by_cases h3 : k = q
        · subst h3
          simp [bookAdd, h1, h2, levelOf]
        · simp [bookAdd, h1, h2, levelOf, h3, ih]

/-- Appending at `p` extends exactly the `p` level (for a sorted book). -/
theorem bookAdd_levelOf_self {R : ℚ → ℚ → Prop} {before : ℚ → ℚ → Bool}
    (hiff : ∀ a b, before a b = true ↔ R a b)
    (hirr : ∀ a, ¬ R a a) (htr : ∀ a b c, R a b → R b c → R a c)
    (p : ℚ) (o : Order) {bk : Book}
    (hsort : (bookKeys bk).Pairwise R) :
    levelOf p (bookAdd before p o bk) = levelOf p bk ++ [o] := by
  induction bk with
  | nil => simp [bookAdd, levelOf]
  | cons hd rest ih =>
    obtain ⟨k, lv⟩ := hd
    rw [bookKeys_cons] at hsort
    obtain ⟨hhead, htail⟩ := List.pairwise_cons.mp hsort
    by_cases h1 : before p k
    · have hpk : R p k := (hiff p k).mp h1
      have hk : k ≠ p := fun h => hirr p (h ▸ hpk)
      have hnm : p ∉ bookKeys rest := by
        intro hmem
        exact hirr p (htr p k p hpk (hhead p hmem))
      rw [bookAdd, if_pos h1, levelOf, if_pos rfl, levelOf, if_neg hk,
        levelOf_eq_nil_of_not_mem hnm]
      rfl
    · by_cases h2 : p = k
      · subst h2
        rw [bookAdd, if_neg h1, if_pos rfl, levelOf, if_pos rfl, levelOf,
          if_pos rfl]
      · rw [bookAdd, if_neg h1, if_neg h2, levelOf,
          if_neg (fun h => h2 h.symm), levelOf, if_neg (fun h => h2 h.symm),
          ih htail]

/-- C9: a valid insert leaves every own-side level other than its limit
price untouched, and the limit-price level is either untouched or gets
exactly the residual taker appended at its tail; previously resting
own-side orders keep id, price, size and position. -/
theorem C9_own_side_frame (e : MatchEngine) (id : String) (side : Side)
    (p sz : ℚ) (ts : Int)
    (hid : id ≠ "") (hp : 0 < p) (hsz : 0 < sz) (hts : 0 ≤ ts)
    (hsb : SortedBids e.bids) (hsa : SortedAsks e.asks) :
    ∃ fills e2, insert e id side p sz ts = .ok (fills, e2) ∧
      (∀ q, q ≠ p → levelOf q (ownBook e2 side) = levelOf q (ownBook e side)) ∧
      ∃ r : List Order,
        levelOf p (ownBook e2 side) = levelOf p (ownBook e side) ++ r ∧
        (r = [] ∨ ∃ s2, 0 < s2 ∧ r = [⟨id, side, p, s2, ts⟩]) := by
  cases side with
  | BUY =>
    have hins := insert_ok_buy e id p sz ts hid hp hsz hts
    obtain ⟨s2, hs2⟩ := matchBook_taker_eq ⟨id, .BUY, p, sz, ts⟩ e.asks
      e.order_map buyCross
    by_cases hres : 0 < (matchBook ⟨id, .BUY, p, sz, ts⟩ e.asks
        e.order_map buyCross).2.1.size
    · rw [if_pos hres] at hins
      refine ⟨_, _, hins, ?_, [⟨id, .BUY, p, s2, ts⟩], ?_, ?_⟩
      · intro q hq
        exact bookAdd_levelOf_ne bidBefore p _ hq e.bids
      · show levelOf p (bookAdd bidBefore p _ e.bids) = _
        rw [hs2]
        exact bookAdd_levelOf_self (R := fun a b => b < a)
          (fun a b => by simp [bidBefore]) (fun a => lt_irrefl a)
          (fun a b c h1 h2 => lt_trans h2 h1) p _ hsb
      · right
        refine ⟨s2, ?_, rfl⟩
        rw [hs2] at hres
        simpa using hres
    · rw [if_neg hres] at hins
      refine ⟨_, _, hins, fun q hq => rfl, [], ?_, Or.inl rfl⟩
      simp [ownBook]
  | SELL =>
    have hins := insert_ok_sell e id p sz ts hid hp hsz hts
    obtain ⟨s2, hs2⟩ := matchBook_taker_eq ⟨id, .SELL, p, sz, ts⟩ e.bids
      e.order_map sellCross
    by_cases hres : 0 < (matchBook ⟨id, .SELL, p, sz, ts⟩ e.bids
        e.order_map sellCross).2.1.size
    · rw [if_pos hres] at hins
      refine ⟨_, _, hins, ?_, [⟨id, .SELL, p, s2, ts⟩], ?_, ?_⟩
      · intro q hq
        exact bookAdd_levelOf_ne askBefore p _ hq e.asks
      · show levelOf p (bookAdd askBefore p _ e.asks) = _
        rw [hs2]
        exact bookAdd_levelOf_self (R := (· < ·))
          (fun a b => by simp [askBefore]) (fun a => lt_irrefl a)
          (fun a b c h1 h2 => lt_trans h1 h2) p _ hsa
      · right
        refine ⟨s2, ?_, rfl⟩
        rw [hs2] at hres
        simpa using hres
    · rw [if_neg hres] at hins
      refine ⟨_, _, hins, fun q hq => rfl, [], ?_, Or.inl rfl⟩
      simp [ownBook]

/-- Witness for C9: a crossing BUY that partially rests at a fresh price. -/
theorem C9_witness :
    ∃ fills e2, insert engineNC "B" .BUY 101 7 9 = .ok (fills, e2) ∧
      (∀ q, q ≠ 101 →
        levelOf q (ownBook e2 .BUY) = levelOf q (ownBook engineNC .BUY)) ∧
      ∃ r : List Order,
        levelOf 101 (ownBook e2 .BUY) =
          levelOf 101 (ownBook engineNC .BUY) ++ r ∧
        (r = [] ∨ ∃ s2, 0 < s2 ∧ r = [⟨"B", .BUY, 101, s2, 9⟩]) :=
  C9_own_side_frame engineNC "B" .BUY 101 7 9 (by decide) (by decide)
    (by decide) (by decide) (by decide) (by decide)

/-! ### C6: price priority and FIFO order of the fills of one insert -/

theorem matchLevel_fills_price (t : Order) (os : List Order) (om : OMap)
    (q : ℚ) : ∀ f ∈ (matchLevel t os om q).1, f.price = q := by
  induction os generalizing t om with
  | nil => simp [matchLevel_nil]
  | cons maker rest ih =>
    by_cases hz : t.size ≤ 0
    · simp [matchLevel_of_nonpos _ _ _ hz]
    · by_cases hstale : maker.size ≤ 0
      · rw [matchLevel_cons_stale rest om q hz hstale]
        exact ih t om
      · by_cases hx : maker.size - min t.size maker.size ≤ 0
        · rw [matchLevel_cons_erase rest om q hz hstale hx]
          intro f hf
          rcases List.mem_cons.mp hf with rfl | hf2
          · rfl
          · exact ih _ _ f hf2
        · rw [matchLevel_cons_keep rest om q hz hstale hx]
          intro f hf
          rcases List.mem_cons.mp hf with rfl | hf2
          · rfl
          · exact ih _ _ f hf2

theorem matchLevel_makers_sublist (t : Order) (os : List Order) (om : OMap)
    (q : ℚ) :
    ((matchLevel t os om q).1.map Fill.maker_order_id).Sublist
      (os.map Order.order_id) := by
  induction os generalizing t om with
  | nil => simp [matchLevel_nil]
  | cons maker rest ih =>
    by_cases hz : t.size ≤ 0
    · simp [matchLevel_of_nonpos _ _ _ hz]
    · by_cases hstale : maker.size ≤ 0
      · rw [matchLevel_cons_stale rest om q hz hstale, List.map_cons]
        exact (ih t om).cons maker.order_id
      · by_cases hx : maker.size - min t.size maker.size ≤ 0
        · rw [matchLevel_cons_erase rest om q hz hstale hx, List.map_cons,
            List.map_cons]
          exact (ih _ _).cons₂ maker.order_id
        · rw [matchLevel_cons_keep rest om q hz hstale hx, List.map_cons,
            List.map_cons]
          exact (ih _ _).cons₂ maker.order_id

theorem matchBook_fills_price_mem (t : Order) (bk : Book) (om : OMap)
    (cross : ℚ → ℚ → Bool) :
    ∀ f ∈ (matchBook t bk om cross).1, f.price ∈ bookKeys bk := by
  induction bk generalizing t om with
  | nil => simp [matchBook]
  | cons hd rest ih =>
    obtain ⟨q, lv⟩ := hd
    by_cases hz : t.size ≤ 0
    · simp [matchBook_of_nonpos _ _ _ hz]
    · by_cases hc : cross q t.price
      · rw [matchBook_cons_cross rest om cross hz hc]
        intro f hf
        rcases List.mem_append.mp hf with hf1 | hf2
        · rw [bookKeys_cons, matchLevel_fills_price t lv om q f hf1]
          simp
        · rw [bookKeys_cons]
          exact List.mem_cons_of_mem q (ih _ _ f hf2)
      · simp [matchBook_cons_nocross rest om cross hc]

theorem matchBook_fills_pairwise {R : ℚ → ℚ → Prop} (t : Order) {bk : Book}
    (om : OMap) (cross : ℚ → ℚ → Bool)
    (hsort : (bookKeys bk).Pairwise R) :
    (matchBook t bk om cross).1.Pairwise
      (fun f1 f2 => R f1.price f2.price ∨ f1.price = f2.price) := by
  induction bk generalizing t om with
  | nil => simp [matchBook]
  | cons hd rest ih =>
    obtain ⟨q, lv⟩ := hd
    rw [bookKeys_cons] at hsort
    obtain ⟨hhead, htail⟩ := List.pairwise_cons.mp hsort
    by_cases hz : t.size ≤ 0
    · simp [matchBook_of_nonpos _ _ _ hz]
    · by_cases hc : cross q t.price
      · rw [matchBook_cons_cross rest om cross hz hc]
        rw [List.pairwise_append]
        refine ⟨?_, ih _ _ htail, ?_⟩
        · have hq := matchLevel_fills_price t lv om q
          exact List.Pairwise.imp_of_mem
            (fun ha hb _ => Or.inr ((hq _ ha).trans (hq _ hb).symm))
            (List.pairwise_of_forall_mem_list (fun a _ b _ => trivial))
        · intro f1 hf1 f2 hf2
          left
          rw [matchLevel_fills_price t lv om q f1 hf1]
          exact hhead f2.price (matchBook_fills_price_mem _ rest _ cross f2 hf2)
      · simp [matchBook_cons_nocross rest om cross hc]

theorem matchBook_fills_fifo {R : ℚ → ℚ → Prop} (t : Order) {bk : Book}
    (om : OMap) (cross : ℚ → ℚ → Bool)
    (hsort : (bookKeys bk).Pairwise R) (hirr : ∀ a, ¬ R a a) :
    ∀ q0, (((matchBook t bk om cross).1.filter
        (fun f => f.price = q0)).map Fill.maker_order_id).Sublist
      ((levelOf q0 bk).map Order.order_id) := by
  induction bk generalizing t om with
  | nil => simp [matchBook]
  | cons hd rest ih =>
    obtain ⟨q, lv⟩ := hd
    rw [bookKeys_cons] at hsort
    obtain ⟨hhead, htail⟩ := List.pairwise_cons.mp hsort
    intro q0
    by_cases hz : t.size ≤ 0
    · simp [matchBook_of_nonpos _ _ _ hz]
    · by_cases hc : cross q t.price
      · rw [matchBook_cons_cross rest om cross hz hc, List.filter_append]
        by_cases hq0 : q = q0
        · subst hq0
          have h1 : (matchLevel t lv om q).1.filter
              (fun f => f.price = q) = (matchLevel t lv om q).1 :=
            List.filter_eq_self.mpr (fun f hf => by
              simp [matchLevel_fills_price t lv om q f hf])
          have h2 : (matchBook (matchLevel t lv om q).2.1 rest
              (matchLevel t lv om q).2.2.2 cross).1.filter
                (fun f => f.price = q) = [] := by
            rw [List.filter_eq_nil_iff]
            intro f hf
            simp only [decide_eq_true_eq]
            intro hpf
            have := matchBook_fills_price_mem _ rest _ cross f hf
            rw [hpf] at this
            exact hirr q (hhead q this)
          rw [h1, h2, List.append_nil, levelOf, if_pos rfl]
          exact matchLevel_makers_sublist t lv om q
        · have h1 : (matchLevel t lv om q).1.filter
              (fun f => f.price = q0) = [] := by
            rw [List.filter_eq_nil_iff]
            intro f hf
            simp only [decide_eq_true_eq]
            rw [matchLevel_fills_price t lv om q f hf]
            exact hq0
          rw [h1, List.nil_append, levelOf, if_neg hq0]
          exact ih _ _ htail q0
      · simp [matchBook_cons_nocross rest om cross hc]

/-- C6: within one valid insert, fills occur at non-decreasing prices for
a BUY taker (non-increasing for a SELL taker), and within each price the
makers appear as a subsequence of that level's arrival (FIFO) queue. -/
theorem C6_fill_ordering (e : MatchEngine) (id : String) (side : Side)
    (p sz : ℚ) (ts : Int)
    (hid : id ≠ "") (hp : 0 < p) (hsz : 0 < sz) (hts : 0 ≤ ts)
    (hsb : SortedBids e.bids) (hsa : SortedAsks e.asks) :
    ∃ fills e2, insert e id side p sz ts = .ok (fills, e2) ∧
      fills.Pairwise (fun f1 f2 =>
        match side with
        | .BUY => f1.price ≤ f2.price
        | .SELL => f2.price ≤ f1.price) ∧
      ∀ q, ((fills.filter (fun f => f.price = q)).map
          Fill.maker_order_id).Sublist
        ((levelOf q (oppBook e side)).map Order.order_id) := by
  cases side with
  | BUY =>
    have hins := insert_ok_buy e id p sz ts hid hp hsz hts
    have hpw := matchBook_fills_pairwise (R := (· < ·))
      ⟨id, .BUY, p, sz, ts⟩ e.order_map buyCross hsa
    have hpw2 := hpw.imp (fun h => by
      rcases h with h | h
      · exact le_of_lt h
      · exact le_of_eq h)
    have hff := matchBook_fills_fifo (R := (· < ·)) ⟨id, .BUY, p, sz, ts⟩
      e.order_map buyCross hsa (fun a => lt_irrefl a)
    by_cases hres : 0 < (matchBook ⟨id, .BUY, p, sz, ts⟩ e.asks
        e.order_map buyCross).2.1.size
    · rw [if_pos hres] at hins
      exact ⟨_, _, hins, hpw2, hff⟩
    · rw [if_neg hres] at hins
      exact ⟨_, _, hins, hpw2, hff⟩
  | SELL =>
    have hins := insert_ok_sell e id p sz ts hid hp hsz hts
    have hpw := matchBook_fills_pairwise (R := fun a b => b < a)
      ⟨id, .SELL, p, sz, ts⟩ e.order_map sellCross hsb
    have hpw2 := hpw.imp (fun h => by
      rcases h with h | h
      · exact le_of_lt h
      · exact le_of_eq h.symm)
    have hff := matchBook_fills_fifo (R := fun a b => b < a)
      ⟨id, .SELL, p, sz, ts⟩ e.order_map sellCross hsb
      (fun a => lt_irrefl a)
    by_cases hres : 0 < (matchBook ⟨id, .SELL, p, sz, ts⟩ e.bids
        e.order_map sellCross).2.1.size
    · rw [if_pos hres] at hins
      exact ⟨_, _, hins, hpw2, hff⟩
    · rw [if_neg hres] at hins
      exact ⟨_, _, hins, hpw2, hff⟩

/-- Witness for C6: the multi-level sweep of spec scenario S3. -/
theorem C6_witness :
    ∃ fills e2,
      insert ⟨[], [(100, [⟨"A", .SELL, 100, 2, 1⟩]),
                   (101, [⟨"C", .SELL, 101, 2, 2⟩])],
              [("A", (.SELL, 100)), ("C", (.SELL, 101))]⟩
        "B" .BUY 101 5 3 = .ok (fills, e2) ∧
      fills.Pairwise (fun f1 f2 => f1.price ≤ f2.price) ∧
      ∀ q, ((fills.filter (fun f => f.price = q)).map
          Fill.maker_order_id).Sublist
        ((levelOf q (oppBook ⟨[], [(100, [⟨"A", .SELL, 100, 2, 1⟩]),
                   (101, [⟨"C", .SELL, 101, 2, 2⟩])],
              [("A", (.SELL, 100)), ("C", (.SELL, 101))]⟩ .BUY)).map
          Order.order_id) :=
  C6_fill_ordering _ "B" .BUY 101 5 3 (by decide) (by decide) (by decide)
    (by decide) (by decide) (by decide)

/-! ### C10: the matching loops terminate within book-size many steps

The embedded loops are total by construction; the content of the
termination claim is the bound: the inner `while` runs at most one
iteration per maker in the level (each iteration erases the head maker or
spends the taker), the outer at most one per level (each iteration erases
a level or moves past it).  The fuel-indexed variants below make one unit
of fuel per loop iteration explicit and agree with the unbounded loops as
soon as the fuel exceeds the level / book length. -/

/-- The inner loop with one unit of fuel per iteration. -/
def matchLevelF (fuel : Nat) (t : Order) (os : List Order) (om : OMap)
    (q : ℚ) : Option (List Fill × Order × List Order × OMap) :=
  match fuel with
  | 0 => none
  | fuel + 1 =>
    match os with
    | [] => some ([], t, [], om)
    | maker :: rest =>
      if t.size ≤ 0 then some ([], t, maker :: rest, om)
      else if maker.size ≤ 0 then matchLevelF fuel t rest om q
      else
        let m := min t.size maker.size
        let fill : Fill := ⟨t.order_id, maker.order_id, q, m, t.timestamp⟩
        let t2 : Order := { t with size := t.size - m }
        let maker2 : Order := { maker with size := maker.size - m }
        if maker2.size ≤ 0 then
          match matchLevelF fuel t2 rest (omapErase maker.order_id om) q with
          | none => none
          | some res => some (fill :: res.1, res.2.1, res.2.2.1, res.2.2.2)
        else
          match matchLevelF fuel t2 rest om q with
          | none => none
          | some res =>
            some (fill :: res.1, res.2.1, maker2 :: res.2.2.1, res.2.2.2)

/-- The outer loop with one unit of fuel per iteration. -/
def matchBookF (fuel : Nat) (t : Order) (bk : Book) (om : OMap)
    (cross : ℚ → ℚ → Bool) : Option (List Fill × Order × Book × OMap) :=
  match fuel with
  | 0 => none
  | fuel + 1 =>
    match bk with
    | [] => some ([], t, [], om)
    | (q, lv) :: rest =>
      if t.size ≤ 0 then some ([], t, (q, lv) :: rest, om)
      else if ¬ cross q t.price then some ([], t, (q, lv) :: rest, om)
      else
        let r1 := matchLevel t lv om q
        match matchBookF fuel r1.2.1 rest r1.2.2.2 cross with
        | none => none
        | some r2 =>
          if r1.2.2.1.isEmpty then
            some (r1.1 ++ r2.1, r2.2.1, r2.2.2.1, r2.2.2.2)
          else
            some (r1.1 ++ r2.1, r2.2.1, (q, r1.2.2.1) :: r2.2.2.1, r2.2.2.2)

theorem matchLevelF_complete (os : List Order) :
    ∀ (f : Nat) (t : Order) (om : OMap) (q : ℚ), os.length < f →
      matchLevelF f t os om q = some (matchLevel t os om q) := by
  induction os with
  | nil =>
    intro f t om q hf
    match f, hf with
    | f + 1, _ => rfl
  | cons maker rest ih =>
    intro f t om q hf
    match f, hf with
    | f + 1, hf =>
      have hrest : rest.length < f := by simpa using hf
      rw [matchLevelF, matchLevel]
      by_cases hz : t.size ≤ 0
      · simp [hz]
      · by_cases hstale : maker.size ≤ 0
        · simp only [if_neg hz, if_pos hstale]
          exact ih f t om q hrest
        · by_cases hx : maker.size - min t.size maker.size ≤ 0
          · simp only [if_neg hz, if_neg hstale, if_pos hx]
            rw [ih f _ _ q hrest]
          · simp only [if_neg hz, if_neg hstale, if_neg hx]
            rw [ih f _ _ q hrest]

theorem matchBookF_complete (bk : Book) :
    ∀ (f : Nat) (t : Order) (om : OMap) (cross : ℚ → ℚ → Bool),
      bk.length < f →
      matchBookF f t bk om cross = some (matchBook t bk om cross) := by
  induction bk with
  | nil =>
    intro f t om cross hf
    match f, hf with
    | f + 1, _ => rfl
  | cons hd rest ih =>
    intro f t om cross hf
    obtain ⟨q, lv⟩ := hd
    match f, hf with
    | f + 1, hf =>
      have hrest : rest.length < f := by simpa using hf
      rw [matchBookF, matchBook]
      by_cases hz : t.size ≤ 0
      · simp [hz]
      · by_cases hc : cross q t.price
        · simp only [if_neg hz, hc, not_true_eq_false, if_neg,
            Bool.true_eq_false, not_false_iff, ite_false]
          rw [ih f _ _ cross hrest]
          by_cases he : (matchLevel t lv om q).2.2.1.isEmpty <;> simp [he]
        · simp [hz, hc]

/-- C10: for every state and arguments the matching loops terminate, and
within an explicit bound: the fuelled inner loop needs no more than
(level length + 1) iterations, the fuelled outer loop no more than
(book length + 1), to agree with the loops of the source. -/
theorem C10_matching_total (t : Order) (os : List Order) (bk : Book)
    (om : OMap) (q : ℚ) (cross : ℚ → ℚ → Bool) (f1 f2 : Nat) :
    (os.length < f1 →
      matchLevelF f1 t os om q = some (matchLevel t os om q)) ∧
    (bk.length < f2 →
      matchBookF f2 t bk om cross = some (matchBook t bk om cross)) :=
  ⟨fun h => matchLevelF_complete os f1 t om q h,
   fun h => matchBookF_complete bk f2 t om cross h⟩

/-- Witness for C10 at a concrete level and book. -/
theorem C10_witness :
    matchLevelF 3 ⟨"T", .BUY, 100, 7, 5⟩
        [⟨"A", .SELL, 100, 2, 1⟩, ⟨"B", .SELL, 100, 3, 2⟩] [] 100 =
      some (matchLevel ⟨"T", .BUY, 100, 7, 5⟩
        [⟨"A", .SELL, 100, 2, 1⟩, ⟨"B", .SELL, 100, 3, 2⟩] [] 100) ∧
    matchBookF 2 ⟨"T", .BUY, 100, 7, 5⟩
        [(100, [⟨"A", .SELL, 100, 2, 1⟩])] [] buyCross =
      some (matchBook ⟨"T", .BUY, 100, 7, 5⟩
        [(100, [⟨"A", .SELL, 100, 2, 1⟩])] [] buyCross) :=
  ⟨(C10_matching_total ⟨"T", .BUY, 100, 7, 5⟩
      [⟨"A", .SELL, 100, 2, 1⟩, ⟨"B", .SELL, 100, 3, 2⟩]
      [(100, [⟨"A", .SELL, 100, 2, 1⟩])] [] 100 buyCross 3 2).1 (by decide),
   (C10_matching_total ⟨"T", .BUY, 100, 7, 5⟩
      [⟨"A", .SELL, 100, 2, 1⟩, ⟨"B", .SELL, 100, 3, 2⟩]
      [(100, [⟨"A", .SELL, 100, 2, 1⟩])] [] 100 buyCross 3 2).2 (by decide)⟩

/-! ### C1: the insert algorithm refines the spec's description

`specMatchLevel` / `specMatchBook` / `specInsert` below are written from
the WORDS of spec §4.6 (they are the one permitted spec-side definition
for a refinement claim): take the head maker while the level is non-empty
and the remaining size is positive, fill `min` of the remainings at the
level price, erase a fully consumed maker from head and index, prune the
level when it empties, stop on `remaining == 0`, stop the walk at the
first non-crossing level, rest the residual at the limit price.  They
test `= 0` where the source defensively tests `≤ 0` and have no
stale-maker branch; the refinement theorem shows the source coincides
with them on every state satisfying spec invariant 1 (resting sizes
positive). -/

/-- Spec §4.6 step 2, inner loop (from the spec's words). -/
def specMatchLevel (t : Order) (os : List Order) (om : OMap) (q : ℚ) :
    List Fill × Order × List Order × OMap :=
  match os with
  | [] => ([], t, [], om)
  | M :: rest =>
    if t.size = 0 then ([], t, M :: rest, om)
    else
      let m := min t.size M.size
      let fill : Fill := ⟨t.order_id, M.order_id, q, m, t.timestamp⟩
      let t2 : Order := { t with size := t.size - m }
      let M2 : Order := { M with size := M.size - m }
      if M2.size = 0 then
        let res := specMatchLevel t2 rest (omapErase M.order_id om) q
        (fill :: res.1, res.2.1, res.2.2.1, res.2.2.2)
      else
        ([fill], t2, M2 :: rest, om)

/-- Spec §4.6 steps 2–3, outer walk (from the spec's words). -/
def specMatchBook (t : Order) (bk : Book) (om : OMap)
    (cross : ℚ → ℚ → Bool) : List Fill × Order × Book × OMap :=
  match bk with
  | [] => ([], t, [], om)
  | (q, lv) :: rest =>
    if t.size = 0 then ([], t, (q, lv) :: rest, om)
    else if ¬ cross q t.price then ([], t, (q, lv) :: rest, om)
    else
      let r1 := specMatchLevel t lv om q
      let r2 := specMatchBook r1.2.1 rest r1.2.2.2 cross
      if r1.2.2.1.isEmpty then
        (r1.1 ++ r2.1, r2.2.1, r2.2.2.1, r2.2.2.2)
      else
        (r1.1 ++ r2.1, r2.2.1, (q, r1.2.2.1) :: r2.2.2.1, r2.2.2.2)

/-- Spec §4.6 steps 1–5 (from the spec's words; validation is the
caller's "valid insert" premise). -/
def specInsert (e : MatchEngine) (id : String) (side : Side)
    (p sz : ℚ) (ts : Int) : List Fill × MatchEngine :=
  let o : Order := ⟨id, side, p, sz, ts⟩
  match side with
  | .BUY =>
    let r := specMatchBook o e.asks e.order_map buyCross
    if 0 < r.2.1.size then
      (r.1, ⟨bookAdd bidBefore p r.2.1 e.bids, r.2.2.1,
        omapAssign id (side, p) r.2.2.2⟩)
    else (r.1, ⟨e.bids, r.2.2.1, r.2.2.2⟩)
  | .SELL =>
    let r := specMatchBook o e.bids e.order_map sellCross
    if 0 < r.2.1.size then
      (r.1, ⟨r.2.2.1, bookAdd askBefore p r.2.1 e.asks,
        omapAssign id (side, p) r.2.2.2⟩)
    else (r.1, ⟨r.2.2.1, e.asks, r.2.2.2⟩)

theorem matchLevel_eq_spec {t : Order} {os : List Order} (om : OMap)
    (q : ℚ) (h0 : 0 ≤ t.size) (hpos : ∀ o ∈ os, 0 < o.size) :
    matchLevel t os om q = specMatchLevel t os om q := by
  induction os generalizing t om with
  | nil => rfl
  | cons M rest ih =>
    have hm := hpos M (by simp)
    have hrest : ∀ o ∈ rest, 0 < o.size := fun o ho => hpos o (by simp [ho])
    by_cases hz0 : t.size = 0
    · rw [matchLevel_of_nonpos _ _ _ (le_of_eq hz0), specMatchLevel,
        if_pos hz0]
    · have hz : ¬ t.size ≤ 0 := fun h => hz0 (le_antisymm h h0)
      have hstale : ¬ M.size ≤ 0 := not_le.mpr hm
      have hmle_t : min t.size M.size ≤ t.size := min_le_left _ _
      have hmle_M : min t.size M.size ≤ M.size := min_le_right _ _
      by_cases hx : M.size - min t.size M.size ≤ 0
      · have hx0 : M.size - min t.size M.size = 0 :=
          le_antisymm hx (by linarith)
        have hcond : ({ M with size := M.size - min t.size M.size } :
            Order).size = 0 := hx0
        have hih := ih (t := { t with size := t.size - min t.size M.size })
          (omapErase M.order_id om) (by simp) hrest
        rw [matchLevel_cons_erase rest om q hz hstale hx,
          specMatchLevel, if_neg hz0]
        simp only [if_pos hcond]
        rw [hih]
      · have hcond : ¬ ({ M with size := M.size - min t.size M.size } :
            Order).size = 0 := by
          simp only
          intro h
          exact hx (le_of_eq h)
        have hmt : min t.size M.size = t.size := by
          rcases le_total t.size M.size with h | h
          · exact min_eq_left h
          · exact absurd (by rw [min_eq_right h]; simp) hx
        rw [matchLevel_cons_keep rest om q hz hstale hx,
          matchLevel_of_nonpos _ _ _ (by simp [hmt]),
          specMatchLevel, if_neg hz0]
        simp only [if_neg hcond]

theorem matchBook_eq_spec {t : Order} {bk : Book} (om : OMap)
    (cross : ℚ → ℚ → Bool) (h0 : 0 ≤ t.size)
    (hpos : ∀ o ∈ bookOrders bk, 0 < o.size) :
    matchBook t bk om cross = specMatchBook t bk om cross := by
  induction bk generalizing t om with
  | nil => rfl
  | cons hd rest ih =>
    obtain ⟨q, lv⟩ := hd
    have hlv : ∀ o ∈ lv, 0 < o.size := fun o ho =>
      hpos o (by simp [bookOrders, ho])
    have hrest : ∀ o ∈ bookOrders rest, 0 < o.size := fun o ho =>
      hpos o (by simp [bookOrders, ho])
    by_cases hz0 : t.size = 0
    · rw [matchBook_of_nonpos _ _ _ (le_of_eq hz0), specMatchBook,
        if_pos hz0]
    · have hz : ¬ t.size ≤ 0 := fun h => hz0 (le_antisymm h h0)
      by_cases hc : cross q t.price
      · have hl := matchLevel_eq_spec om q (le_of_lt (not_le.mp hz)) hlv
        have h04 := (matchLevel_conserve om q
          (le_of_lt (not_le.mp hz)) hlv).2.2.2.1
        rw [matchBook_cons_cross rest om cross hz hc, specMatchBook,
          if_neg hz0]
        simp only [hc, not_true_eq_false, Bool.true_eq_false,
          not_false_iff, ite_false, if_neg]
        rw [← hl, ih _ h04 hrest]
        by_cases he : (matchLevel t lv om q).2.2.1.isEmpty <;> simp [he]
      · rw [matchBook_cons_nocross rest om cross hc, specMatchBook,
          if_neg hz0]
        simp [hc]

/-- C1: on every engine satisfying spec invariant 1 (resting sizes are
positive), a valid insert behaves exactly as spec §4.6 describes: the BUY
case walks the ask book from the lowest price through the levels that
cross, fills `min(remaining, maker remaining)` against successive head
makers at the level price with the taker's id and timestamp, erases
consumed makers and their index entries, prunes emptied levels, stops
when the taker is spent or the next level no longer crosses, rests any
residual at the limit price on the bid side registering it in the index,
and returns the fills in emission order; the SELL case is symmetric over
the bid book with the inverted comparison. -/
theorem C1_insert_refines_spec (e : MatchEngine) (id : String) (side : Side)
    (p sz : ℚ) (ts : Int) (hid : id ≠ "") (hp : 0 < p) (hsz : 0 < sz)
    (hts : 0 ≤ ts)
    (hpb : ∀ o ∈ bookOrders e.bids, 0 < o.size)
    (hpa : ∀ o ∈ bookOrders e.asks, 0 < o.size) :
    insert e id side p sz ts = .ok (specInsert e id side p sz ts) := by
  cases side with
  | BUY =>
    have hins := insert_ok_buy e id p sz ts hid hp hsz hts
    have heq := matchBook_eq_spec (t := ⟨id, .BUY, p, sz, ts⟩)
      e.order_map buyCross (by simpa using le_of_lt hsz) hpa
    rw [hins, specInsert]
    simp only [← heq]
    by_cases hres : 0 < (matchBook ⟨id, .BUY, p, sz, ts⟩ e.asks
        e.order_map buyCross).2.1.size
    · rw [if_pos hres, if_pos hres]
    · rw [if_neg hres, if_neg hres]
  | SELL =>
    have hins := insert_ok_sell e id p sz ts hid hp hsz hts
    have heq := matchBook_eq_spec (t := ⟨id, .SELL, p, sz, ts⟩)
      e.order_map sellCross (by simpa using le_of_lt hsz) hpb
    rw [hins, specInsert]
    simp only [← heq]
    by_cases hres : 0 < (matchBook ⟨id, .SELL, p, sz, ts⟩ e.bids
        e.order_map sellCross).2.1.size
    · rw [if_pos hres, if_pos hres]
    · rw [if_neg hres, if_neg hres]

/-- Witness for C1: a two-level sweep with residual rest. -/
theorem C1_witness :
    insert engineNC "B" .BUY 101 7 9 =
      .ok (specInsert engineNC "B" .BUY 101 7 9) :=
  C1_insert_refines_spec engineNC "B" .BUY 101 7 9 (by decide) (by decide)
    (by decide) (by decide) (by decide) (by decide)

end LOB
